import Mathlib

/-!
Verification of the simple-encode library (Base16/32/36/58/62/64/91 codecs).

The Rust source is shallowly embedded:
* byte sequences are `List Nat` whose elements are < 256;
* Rust `String`s are `List Char`; `str::find` and `chars().nth` become
  `strFind` and `List.get?` (all alphabets are ASCII, so the byte index
  returned by `str::find` coincides with the character index);
* `u32`/`u128` arithmetic is `Nat` arithmetic reduced `% 2^32` / `% 2^128`
  at each operation that can overflow;
* `anyhow::Result` is `Except String`; `Base16::decode`, which indexes the
  input string by bytes and can hit a non-character-boundary slice, returns
  `ROut` with an explicit `panic` outcome and works on the UTF-8 bytes.
-/

namespace SimpleEncode

/-- Outcome of a Rust call that may panic, fail with an error, or succeed. -/
inductive ROut (α : Type) where
  | panic : ROut α
  | err : String → ROut α
  | ok : α → ROut α
deriving DecidableEq, Repr

/-- `str::find(c)`: index of the first occurrence of `c` (ASCII strings). -/
def strFind (c : Char) : List Char → Option Nat
  | [] => none
  | a :: rest => if a = c then some 0 else (strFind c rest).map (· + 1)

/-- UTF-8 encoding of a single character. -/
def utf8Char (c : Char) : List Nat :=
  let n := c.toNat
  if n < 0x80 then [n]
  else if n < 0x800 then
    [0xC0 ||| (n >>> 6), 0x80 ||| (n &&& 0x3F)]
  else if n < 0x10000 then
    [0xE0 ||| (n >>> 12), 0x80 ||| ((n >>> 6) &&& 0x3F), 0x80 ||| (n &&& 0x3F)]
  else
    [0xF0 ||| (n >>> 18), 0x80 ||| ((n >>> 12) &&& 0x3F),
     0x80 ||| ((n >>> 6) &&& 0x3F), 0x80 ||| (n &&& 0x3F)]

/-- UTF-8 encoding of a string (Rust `str` is its UTF-8 byte sequence). -/
def utf8Bytes (s : List Char) : List Nat := s.flatMap utf8Char

/-- A UTF-8 continuation byte (`0b10xxxxxx`); a position holding one is not
a character boundary. -/
def isCont (b : Nat) : Bool := 128 ≤ b && b < 192

/-- `char::to_digit(16)` on an ASCII byte. -/
def hexVal (b : Nat) : Option Nat :=
  if 48 ≤ b ∧ b ≤ 57 then some (b - 48)
  else if 97 ≤ b ∧ b ≤ 102 then some (b - 87)
  else if 65 ≤ b ∧ b ≤ 70 then some (b - 55)
  else none

/-- `u8::from_str_radix(s, 16)` on a two-byte slice: an optional leading `+`
sign, then hex digits (a two-byte slice that is a single non-ASCII character
has no digit and fails). -/
def parseChunk (b1 b2 : Nat) : Option Nat :=
  if b1 = 43 then hexVal b2
  else
    match hexVal b1, hexVal b2 with
    | some h, some l => some (16 * h + l)
    | _, _ => none

/-- Lowercase hex digit character for a value < 16 (as in `format!("{:02x}")`). -/
def hexDigitChar (n : Nat) : Char :=
  if n < 10 then Char.ofNat (48 + n) else Char.ofNat (87 + n)

namespace Base16

/-- `Base16::encode`: each byte becomes two lowercase hex characters. -/
def encode (input : List Nat) : Except String (List Char) :=
  Except.ok (input.flatMap fun byte => [hexDigitChar (byte / 16), hexDigitChar (byte % 16)])

/-- The chunk loop of `Base16::decode` over the UTF-8 bytes.  Each step takes
the slice `input[i..i+2]`; the slice operation panics when `i+2` is not a
character boundary (`i` itself is a boundary by construction: it is either 0
or the end of the previous slice). -/
def decodeLoop : List Nat → ROut (List Nat)
  | [] => ROut.ok []
  | [_] => ROut.err "internal: odd tail"
  | b1 :: b2 :: rest =>
    match rest with
    | b3 :: _ =>
      if isCont b3 then ROut.panic
      else
        match parseChunk b1 b2 with
        | none => ROut.err "invalid digit"
        | some v =>
          match decodeLoop rest with
          | ROut.ok tl => ROut.ok (v :: tl)
          | r => r
    | [] =>
      match parseChunk b1 b2 with
      | none => ROut.err "invalid digit"
      | some v => ROut.ok [v]

/-- `Base16::decode` on the raw UTF-8 bytes of the input string. -/
def decodeBytes (bytes : List Nat) : ROut (List Nat) :=
  if bytes.length % 2 ≠ 0 then ROut.err "hex string has an odd length"
  else decodeLoop bytes

/-- `Base16::decode` on a string. -/
def decode (s : List Char) : ROut (List Nat) := decodeBytes (utf8Bytes s)

end Base16

/-- Pure specification of the Base16 chunk loop: parse consecutive byte pairs. -/
def parsePairs : List Nat → Option (List Nat)
  | [] => some []
  | [_] => none
  | b1 :: b2 :: r =>
    match parseChunk b1 b2, parsePairs r with
    | some v, some vs => some (v :: vs)
    | _, _ => none

/-- Modulus of `u32` arithmetic. -/
def U32 : Nat := 2 ^ 32

/-- Modulus of `u128` arithmetic. -/
def U128 : Nat := 2 ^ 128

def BASE32_ALPHABET : List Char := "ABCDEFGHIJKLMNOPQRSTUVWXYZ234567".data

def BASE36_ALPHABET : List Char := "0123456789abcdefghijklmnopqrstuvwxyz".data

def BASE58_ALPHABET : List Char :=
  "123456789ABCDEFGHJKLMNPQRSTUVWXYZabcdefghijkmnopqrstuvwxyz".data

def BASE62_ALPHABET : List Char :=
  "0123456789ABCDEFGHIJKLMNOPQRSTUVWXYZabcdefghijklmnopqrstuvwxyz".data

def BASE64_ALPHABET : List Char :=
  "ABCDEFGHIJKLMNOPQRSTUVWXYZabcdefghijklmnopqrstuvwxyz0123456789+/".data

def BASE91_ALPHABET : List Char :=
  "ABCDEFGHIJKLMNOPQRSTUVWXYZabcdefghijklmnopqrstuvwxyz0123456789!#$%&()*+,./:;<=>?@[]^_`{|}~\"".data

/-- The `while bits_left >= g` emission of the bit-packing encoders: returns
the emitted group indices (in emission order) and the final `bits_left`. -/
def emitGroups (g buffer : Nat) (bl : Nat) : List Nat × Nat :=
  if h : 0 < g ∧ g ≤ bl then
    let out := emitGroups g buffer (bl - g)
    (((buffer >>> (bl - g)) &&& (2 ^ g - 1)) :: out.1, out.2)
  else ([], bl)
termination_by bl
decreasing_by omega

/-- `chars().nth` lookups of a list of indices, with the source's error branch. -/
def mapAlphabet (alpha : List Char) : List Nat → Except String (List Char)
  | [] => Except.ok []
  | i :: rest =>
    match alpha.get? i with
    | none => Except.error "get value from alphabet failed"
    | some c => (mapAlphabet alpha rest).map (c :: ·)

/-- Per-byte loop shared by `Base32::encode` (g = 5) and `Base64::encode`
(g = 6): shift each byte into a `u32` buffer and emit full `g`-bit groups.
Returns the characters plus the final buffer state. -/
def packEncodeLoop (g : Nat) (alpha : List Char) :
    List Nat → Nat → Nat → Except String (List Char × Nat × Nat)
  | [], buffer, bl => Except.ok ([], buffer, bl)
  | byte :: rest, buffer, bl =>
    let buffer' := ((buffer <<< 8) % U32) ||| (byte % 256)
    let out := emitGroups g buffer' (bl + 8)
    match mapAlphabet alpha out.1 with
    | Except.error e => Except.error e
    | Except.ok cs =>
      match packEncodeLoop g alpha rest buffer' out.2 with
      | Except.error e => Except.error e
      | Except.ok (cs', buf'', bl'') => Except.ok (cs ++ cs', buf'', bl'')

/-- The `while encoded.len() % blk != 0 { encoded.push('=') }` padding. -/
def padChars (blk : Nat) (s : List Char) : List Char :=
  s ++ List.replicate ((blk - s.length % blk) % blk) '='

/-- `Base32::encode` / `Base64::encode`: bit packing, final partial group
left-shifted to `g` bits, then `=`-padding to a multiple of `blk`. -/
def packEncode (g blk : Nat) (alpha : List Char) (input : List Nat) :
    Except String (List Char) :=
  match packEncodeLoop g alpha input 0 0 with
  | Except.error e => Except.error e
  | Except.ok (cs, buffer, bl) =>
    if 0 < bl then
      match alpha.get? (((buffer <<< (g - bl)) % U32) &&& (2 ^ g - 1)) with
      | none => Except.error "get value from alphabet failed"
      | some c => Except.ok (padChars blk (cs ++ [c]))
    else Except.ok (padChars blk cs)

/-- `Base32::decode` / `Base64::decode`: stop at the first `=`, accumulate
`g` bits per character, emit a byte whenever 8 bits are buffered. -/
def packDecodeLoop (g : Nat) (alpha : List Char) (emsg : String) :
    List Char → Nat → Nat → Except String (List Nat)
  | [], _, _ => Except.ok []
  | c :: rest, buffer, bl =>
    if c = '=' then Except.ok []
    else
      match strFind c alpha with
      | none => Except.error emsg
      | some i =>
        let buffer' := ((buffer <<< g) % U32) ||| i
        let bl' := bl + g
        if 8 ≤ bl' then
          (packDecodeLoop g alpha emsg rest buffer' (bl' - 8)).map
            (((buffer' >>> (bl' - 8)) % 256) :: ·)
        else
          packDecodeLoop g alpha emsg rest buffer' bl'

namespace Base32

def encode (input : List Nat) : Except String (List Char) :=
  packEncode 5 8 BASE32_ALPHABET input

def decode (s : List Char) : Except String (List Nat) :=
  packDecodeLoop 5 BASE32_ALPHABET "invalid base32 character" s 0 0

end Base32

namespace Base64

def encode (input : List Nat) : Except String (List Char) :=
  packEncode 6 4 BASE64_ALPHABET input

def decode (s : List Char) : Except String (List Nat) :=
  packDecodeLoop 6 BASE64_ALPHABET "invalid base64 character" s 0 0

end Base64

/-- The `while num > 0 { push(num % 256); num /= 256 }` byte extraction of the
big-integer decoders (`Base36::decode` writes it as `num & 0xFF` / `num >>= 8`,
which computes the same values). -/
def leBytesLoop (num : Nat) : List Nat :=
  if h : num = 0 then [] else (num % 256) :: leBytesLoop (num / 256)
termination_by num
decreasing_by exact Nat.div_lt_self (Nat.pos_of_ne_zero h) (by omega)

/-- The digit-accumulation loop shared by the big-integer decoders:
`num = num * radix + index` in `u128` arithmetic, failing on a character that
is not in the alphabet. -/
def bigDecodeNum (radix : Nat) (alpha : List Char) (emsg : String) :
    List Char → Nat → Except String Nat
  | [], num => Except.ok num
  | c :: rest, num =>
    match strFind c alpha with
    | none => Except.error emsg
    | some i => bigDecodeNum radix alpha emsg rest ((num * radix + i) % U128)

namespace Base36

/-- The `while num > 0` digit loop of `Base36::encode` (digits least
significant first). -/
def digitsLoop (num : Nat) : Except String (List Char) :=
  if h : num = 0 then Except.ok []
  else
    match BASE36_ALPHABET.get? (num % 36) with
    | none => Except.error "get value from alphabet failed"
    | some c =>
      match digitsLoop (num / 36) with
      | Except.error e => Except.error e
      | Except.ok rest => Except.ok (c :: rest)
termination_by num
decreasing_by exact Nat.div_lt_self (Nat.pos_of_ne_zero h) (by omega)

def encode (input : List Nat) : Except String (List Char) :=
  let num := input.foldl (fun num byte => ((num <<< 8) % U128) ||| (byte % 256)) 0
  match digitsLoop num with
  | Except.error e => Except.error e
  | Except.ok ds =>
    let encoded := if ds.isEmpty then ['0'] else ds
    Except.ok encoded.reverse

def decode (s : List Char) : Except String (List Nat) :=
  match bigDecodeNum 36 BASE36_ALPHABET "invalid base36 character" s 0 with
  | Except.error e => Except.error e
  | Except.ok num => Except.ok (leBytesLoop num).reverse

end Base36

namespace Base58

/-- The `while num > 0` digit loop of `Base58::encode`. -/
def digitsLoop (num : Nat) : Except String (List Char) :=
  if h : num = 0 then Except.ok []
  else
    match BASE58_ALPHABET.get? (num % 58) with
    | none => Except.error "get value from alphabet failed"
    | some c =>
      match digitsLoop (num / 58) with
      | Except.error e => Except.error e
      | Except.ok rest => Except.ok (c :: rest)
termination_by num
decreasing_by exact Nat.div_lt_self (Nat.pos_of_ne_zero h) (by omega)

def encode (input : List Nat) : Except String (List Char) :=
  let num := input.foldl (fun num byte => (num * 256 + byte % 256) % U128) 0
  match digitsLoop num with
  | Except.error e => Except.error e
  | Except.ok ds =>
    Except.ok (ds ++ List.replicate (input.takeWhile (· = 0)).length
      BASE58_ALPHABET.headI).reverse

def decode (s : List Char) : Except String (List Nat) :=
  match bigDecodeNum 58 BASE58_ALPHABET "invalid base58 character" s 0 with
  | Except.error e => Except.error e
  | Except.ok num =>
    Except.ok (leBytesLoop num ++
      List.replicate (s.takeWhile (· = BASE58_ALPHABET.headI)).length 0).reverse

end Base58

namespace Base62

/-- The `while num > 0` digit loop of `Base62::encode`. -/
def digitsLoop (num : Nat) : Except String (List Char) :=
  if h : num = 0 then Except.ok []
  else
    match BASE62_ALPHABET.get? (num % 62) with
    | none => Except.error "get value from alphabet failed"
    | some c =>
      match digitsLoop (num / 62) with
      | Except.error e => Except.error e
      | Except.ok rest => Except.ok (c :: rest)
termination_by num
decreasing_by exact Nat.div_lt_self (Nat.pos_of_ne_zero h) (by omega)

def encode (input : List Nat) : Except String (List Char) :=
  let num := input.foldl (fun num byte => (num * 256 + byte % 256) % U128) 0
  match digitsLoop num with
  | Except.error e => Except.error e
  | Except.ok ds =>
    Except.ok (ds ++ List.replicate (input.takeWhile (· = 0)).length
      BASE62_ALPHABET.headI).reverse

def decode (s : List Char) : Except String (List Nat) :=
  match bigDecodeNum 62 BASE62_ALPHABET "invalid base62 character" s 0 with
  | Except.error e => Except.error e
  | Except.ok num =>
    Except.ok (leBytesLoop num ++
      List.replicate (s.takeWhile (· = BASE62_ALPHABET.headI)).length 0).reverse

end Base62

namespace Base91

/-- Emit the two base-91 characters of a 13/14-bit chunk value
(`v % 91` first, then `v / 91`). -/
def encodeTwo (v : Nat) : Except String (List Char) :=
  match BASE91_ALPHABET.get? (v % 91) with
  | none => Except.error "get value from alphabet failed"
  | some c1 =>
    match BASE91_ALPHABET.get? (v / 91) with
    | none => Except.error "get value from alphabet failed"
    | some c2 => Except.ok [c1, c2]

/-- `Base91::encode`: accumulate bytes low-first into `b`; whenever more than
13 bits are buffered, cut 13 bits (if their value exceeds 88) or 14 bits
(otherwise) and emit them as two base-91 characters; at the end flush the
remaining bits as one character, plus a second one when `n > 7 || b > 90`. -/
def encodeLoop : List Nat → Nat → Nat → Except String (List Char)
  | [], b, n =>
    if 0 < n then
      match BASE91_ALPHABET.get? (b % 91) with
      | none => Except.error "get value from alphabet failed"
      | some c1 =>
        if 7 < n ∨ 90 < b then
          match BASE91_ALPHABET.get? (b / 91) with
          | none => Except.error "get value from alphabet failed"
          | some c2 => Except.ok [c1, c2]
        else Except.ok [c1]
    else Except.ok []
  | byte :: rest, b, n =>
    let b1 := b ||| (((byte % 256) <<< n) % U32)
    let n1 := n + 8
    if 13 < n1 then
      let v0 := b1 &&& 8191
      let s :=
        if 88 < v0 then (v0, b1 >>> 13, n1 - 13)
        else (b1 &&& 16383, b1 >>> 14, n1 - 14)
      match encodeTwo s.1 with
      | Except.error e => Except.error e
      | Except.ok cs => (encodeLoop rest s.2.1 s.2.2).map (cs ++ ·)
    else encodeLoop rest b1 n1

def encode (input : List Nat) : Except String (List Char) :=
  encodeLoop input 0 0

/-- The `while n > 7` byte extraction of `Base91::decode`: returns the bytes
plus the final `(b, n)`.  (The loop guard `n > 7` is the pattern `n + 8`.) -/
def extract : Nat → Nat → List Nat × Nat × Nat
  | b, n + 8 =>
    let out := extract (b >>> 8) n
    ((b &&& 255) :: out.1, out.2)
  | b, n => ([], b, n)

/-- `Base91::decode`: characters are read in pairs (`v = d1 + d2 * 91`); the
pair carries 13 bits when `v & 8191 > 88` and 14 bits otherwise; completed
bytes are extracted low-first.  A trailing unpaired character flushes one
final byte.  The `Option Nat` state models the `v: i32 = -1` odometer. -/
def decodeLoop : List Char → Nat → Nat → Option Nat → Except String (List Nat)
  | [], b, n, v =>
    match v with
    | none => Except.ok []
    | some v0 => Except.ok [(b ||| ((v0 <<< n) % U32)) &&& 255]
  | c :: rest, b, n, v =>
    match strFind c BASE91_ALPHABET with
    | none => Except.error "invalid base91 character"
    | some d =>
      match v with
      | none => decodeLoop rest b n (some d)
      | some v0 =>
        let v1 := v0 + d * 91
        let b1 := b ||| ((v1 <<< n) % U32)
        let n1 := n + (if 88 < (v1 &&& 8191) then 13 else 14)
        let out := extract b1 n1
        (decodeLoop rest out.2.1 out.2.2 none).map (out.1 ++ ·)

def decode (s : List Char) : Except String (List Nat) :=
  decodeLoop s 0 0 none

end Base91

/-- Big-endian value of a byte sequence: the number the positional encoders
accumulate (with unbounded integers). -/
def byteVal (bs : List Nat) : Nat := bs.foldl (fun n b => n * 256 + b) 0

/-- The positional big-integer Base58 encoding computed with unbounded
integers (the algorithm of spec §4.3, digits of the big-endian value plus
one index-0 character per leading zero byte). -/
def spec58Encode (input : List Nat) : List Char :=
  ((Nat.digits 58 (byteVal input)).map (fun d => BASE58_ALPHABET.getD d ' ') ++
    List.replicate (input.takeWhile (· = 0)).length '1').reverse

/-- The positional big-integer Base62 encoding computed with unbounded
integers. -/
def spec62Encode (input : List Nat) : List Char :=
  ((Nat.digits 62 (byteVal input)).map (fun d => BASE62_ALPHABET.getD d ' ') ++
    List.replicate (input.takeWhile (· = 0)).length '0').reverse

/-- The positional big-integer Base36 encoding computed with unbounded
integers (no leading-zero restoration; `"0"` for the zero value). -/
def spec36Encode (input : List Nat) : List Char :=
  let ds := (Nat.digits 36 (byteVal input)).map (fun d => BASE36_ALPHABET.getD d ' ')
  (if ds.isEmpty then ['0'] else ds).reverse

/-- The complete `g`-bit groups (most significant first) of the `t`-bit
string whose numeric value is `v`. -/
def topGroups (g : Nat) (t v : Nat) : List Nat :=
  if h : 0 < g ∧ g ≤ t then
    (v >>> (t - g)) :: topGroups g (t - g) (v % 2 ^ (t - g))
  else []
termination_by t
decreasing_by omega

/-- Value of a group list read as base-`2^g` digits, most significant first. -/
def groupVal (g : Nat) (l : List Nat) : Nat := Nat.ofDigits (2 ^ g) l.reverse

/-- The group indices `Base32::encode` / `Base64::encode` emit: all complete
groups of the input bit string, then the left-shifted partial group when the
bit count is not a multiple of `g`. -/
def packIdx (g : Nat) (bs : List Nat) : List Nat :=
  topGroups g (8 * bs.length) (byteVal bs) ++
    (if 8 * bs.length % g = 0 then []
     else [(byteVal bs % 2 ^ (8 * bs.length % g)) * 2 ^ (g - 8 * bs.length % g)])

/-- Little-endian value of a byte sequence: `Base91` shifts bytes in at the
low end. -/
def leVal (bs : List Nat) : Nat := bs.foldr (fun b acc => b + acc * 256) 0

/-- Exactly `w` little-endian base-256 digits of `v`. -/
def leDigits : Nat → Nat → List Nat
  | 0, _ => []
  | w + 1, v => (v % 256) :: leDigits w (v / 256)

/-- The bit width a Base91 chunk value self-describes: 13 when its low 13
bits exceed 88, 14 otherwise. -/
def w91 (v : Nat) : Nat := if 88 < v &&& 8191 then 13 else 14

/-- A character accepted by `char::to_digit(16)`. -/
def isHexDigit (c : Char) : Bool := (hexVal c.toNat).isSome

/-- `b` is `a` or the uppercase form (code point 32 lower) of a lowercase
hex letter `a`. -/
def upcaseRel (a b : Char) : Prop :=
  b = a ∨ (97 ≤ a.toNat ∧ a.toNat ≤ 102 ∧ b.toNat = a.toNat - 32)

/-- Byte-level counterpart of `upcaseRel` on the UTF-8 encodings. -/
def byteCaseRel (b1 b2 : Nat) : Prop :=
  b2 = b1 ∨ (97 ≤ b1 ∧ b1 ≤ 102 ∧ b2 = b1 - 32)


/-- ASCII characters UTF-8-encode to their own code point. -/
theorem utf8Bytes_ascii (s : List Char) (h : ∀ c ∈ s, c.toNat < 128) :
    utf8Bytes s = s.map Char.toNat := by
  induction s with
  | nil => rfl
  | cons c rest ih =>
    have hc : c.toNat < 128 := h c (List.mem_cons_self c rest)
    simp only [utf8Bytes, List.flatMap_cons, List.map_cons] at *
    rw [ih fun d hd => h d (List.mem_cons_of_mem c hd)]
    simp [utf8Char, hc]

example : Base16.decode ['a', 'b'] = ROut.ok [171] := by decide
example : Base16.decode ['A', 'B'] = ROut.ok [171] := by decide
example : Base16.decode ['+', 'f'] = ROut.ok [15] := by decide
example : Base16.decode ['a', 'b', 'c'] = ROut.err "hex string has an odd length" := by decide
example : Base16.decode ['a', 'é', 'b'] = ROut.panic := by decide
example : Base16.encode [72, 101] = Except.ok ['4', '8', '6', '5'] := rfl

/-- On ASCII input of even length, the Base16 chunk loop cannot panic and
agrees with the pure pairwise parser. -/
theorem decodeLoop_eq_parsePairs : ∀ (bs : List Nat), (∀ b ∈ bs, b < 128) →
    bs.length % 2 = 0 →
    Base16.decodeLoop bs = (match parsePairs bs with
      | some vs => ROut.ok vs
      | none => ROut.err "invalid digit")
  | [], _, _ => rfl
  | [_], _, hE => by simp at hE
  | b1 :: b2 :: r, hA, hE => by
    have ih := decodeLoop_eq_parsePairs r (fun b hb => hA b (by simp [hb]))
      (by simp only [List.length_cons] at hE; omega)
    cases r with
    | nil =>
      simp only [Base16.decodeLoop, parsePairs]
      cases parseChunk b1 b2 <;> simp
    | cons b3 rtl =>
      have h3 : b3 < 128 := hA b3 (by simp)
      have hcont : isCont b3 = false := by
        simp only [isCont, Bool.and_eq_false_iff]
        simp only [decide_eq_false_iff_not, not_le, not_lt]
        omega
      simp only [Base16.decodeLoop, parsePairs, hcont, Bool.false_eq_true, if_false]
      cases hpc : parseChunk b1 b2 with
      | none => simp
      | some v =>
        rw [ih]
        cases parsePairs (b3 :: rtl) <;> simp

/-- A successful pairwise parse yields one value per byte pair. -/
theorem parsePairs_length : ∀ (bs : List Nat) (vs : List Nat),
    parsePairs bs = some vs → vs.length = bs.length / 2
  | [], vs, h => by
    simp only [parsePairs, Option.some.injEq] at h
    subst h
    rfl
  | [_], vs, h => by simp [parsePairs] at h
  | b1 :: b2 :: r, vs, h => by
    simp only [parsePairs] at h
    cases hpc : parseChunk b1 b2 with
    | none => rw [hpc] at h; simp at h
    | some v =>
      rw [hpc] at h
      cases hpp : parsePairs r with
      | none => rw [hpp] at h; simp at h
      | some ws =>
        rw [hpp] at h
        simp only [Option.some.injEq] at h
        have hlen := parsePairs_length r ws hpp
        subst h
        simp only [List.length_cons]
        omega

/-- Hex digits of a byte value decode back to it. -/
theorem hexVal_hexDigitChar : ∀ n < 16, hexVal (hexDigitChar n).toNat = some n := by decide

theorem hexDigitChar_ascii : ∀ n < 16, (hexDigitChar n).toNat < 128 := by decide

theorem hexDigitChar_ne_plus : ∀ n < 16, (hexDigitChar n).toNat ≠ 43 := by decide

/-- One encoded chunk parses back to the byte it encodes. -/
theorem parseChunk_encode (b : Nat) (hb : b < 256) :
    parseChunk (hexDigitChar (b / 16)).toNat (hexDigitChar (b % 16)).toNat = some b := by
  have h1 : b / 16 < 16 := by omega
  have h2 : b % 16 < 16 := by omega
  simp only [parseChunk, hexDigitChar_ne_plus _ h1, if_false,
    hexVal_hexDigitChar _ h1, hexVal_hexDigitChar _ h2]
  congr 1
  omega

/-- The UTF-8 bytes of a Base16 encoding: two hex-digit bytes per input byte. -/
def hexBytes (input : List Nat) : List Nat :=
  input.flatMap fun b => [(hexDigitChar (b / 16)).toNat, (hexDigitChar (b % 16)).toNat]

theorem hexBytes_ascii (input : List Nat) (h : ∀ b ∈ input, b < 256) :
    ∀ b ∈ hexBytes input, b < 128 := by
  intro b hb
  simp only [hexBytes, List.mem_flatMap] at hb
  obtain ⟨a, ha, hmem⟩ := hb
  have ha' : a < 256 := h a ha
  simp only [List.mem_cons, List.not_mem_nil, or_false] at hmem
  rcases hmem with h | h <;> subst h
  · exact hexDigitChar_ascii _ (by omega)
  · exact hexDigitChar_ascii _ (Nat.mod_lt _ (by omega))

theorem parsePairs_hexBytes (input : List Nat) (h : ∀ b ∈ input, b < 256) :
    parsePairs (hexBytes input) = some input := by
  induction input with
  | nil => rfl
  | cons b rest ih =>
    have hb : b < 256 := h b (by simp)
    have := ih fun x hx => h x (by simp [hx])
    simp only [hexBytes, List.flatMap_cons, List.cons_append, List.nil_append]
    show parsePairs (_ :: _ :: hexBytes rest) = _
    simp only [parsePairs, parseChunk_encode b hb, this]

/-- The encoded string, as characters. -/
theorem encode_eq_chars (input : List Nat) :
    Base16.encode input =
      Except.ok (input.flatMap fun b => [hexDigitChar (b / 16), hexDigitChar (b % 16)]) := rfl

theorem utf8Bytes_encode (input : List Nat) (hin : ∀ b ∈ input, b < 256) :
    utf8Bytes (input.flatMap fun b => [hexDigitChar (b / 16), hexDigitChar (b % 16)]) =
      hexBytes input := by
  rw [utf8Bytes_ascii]
  · simp [hexBytes, List.map_flatMap]
  · intro c hc
    simp only [List.mem_flatMap, List.mem_cons, List.not_mem_nil, or_false] at hc
    obtain ⟨a, ha, h | h⟩ := hc <;> subst h
    · have := hin a ha
      exact hexDigitChar_ascii _ (by omega)
    · exact hexDigitChar_ascii _ (Nat.mod_lt _ (by omega))

/-! ### Big-integer scheme machinery (Base36 / Base58 / Base62) -/

/-- Horner evaluation as `ofDigits` of the reversed list. -/
theorem foldl_horner_acc (β : Nat) : ∀ (ds : List Nat) (acc : Nat),
    ds.foldl (fun n d => n * β + d) acc =
      acc * β ^ ds.length + Nat.ofDigits β ds.reverse
  | [], acc => by simp [Nat.ofDigits]
  | d :: tl, acc => by
    simp only [List.foldl_cons, List.reverse_cons, List.length_cons]
    rw [foldl_horner_acc β tl (acc * β + d), Nat.ofDigits_append]
    simp [Nat.ofDigits_singleton]
    ring

/-- Horner evaluation is monotone in the accumulator start. -/
theorem foldl_horner_mono (β : Nat) (hβ : 0 < β) : ∀ (ds : List Nat) (acc : Nat),
    acc ≤ ds.foldl (fun n d => n * β + d) acc
  | [], acc => le_refl acc
  | d :: tl, acc => by
    simp only [List.foldl_cons]
    calc acc ≤ acc * β + d := by nlinarith
      _ ≤ _ := foldl_horner_mono β hβ tl (acc * β + d)

/-- When the unbounded Horner value stays below the modulus, the modular
Horner loop computes the same value. -/
theorem foldl_horner_mod (β M : Nat) (hβ : 0 < β) : ∀ (ds : List Nat) (acc : Nat),
    ds.foldl (fun n d => n * β + d) acc < M →
    ds.foldl (fun n d => (n * β + d) % M) acc = ds.foldl (fun n d => n * β + d) acc
  | [], acc, _ => rfl
  | d :: tl, acc, h => by
    simp only [List.foldl_cons] at h ⊢
    have hle : acc * β + d ≤ tl.foldl (fun n d => n * β + d) (acc * β + d) :=
      foldl_horner_mono β hβ tl (acc * β + d)
    rw [Nat.mod_eq_of_lt (by omega)]
    exact foldl_horner_mod β M hβ tl (acc * β + d) h

/-- A left shift reduced to a machine-word width, or-ed with a value that fits
in the shift amount, is addition modulo the word width. -/
theorem shl_mod_or_eq (m r a b : Nat) (hr : r < 2 ^ a) :
    ((m <<< a) % 2 ^ (b + a)) ||| r = (m * 2 ^ a + r) % 2 ^ (b + a) := by
  have hpow : (2 : Nat) ^ (b + a) = 2 ^ b * 2 ^ a := pow_add 2 b a
  have h1 : (m * 2 ^ a) % (2 ^ b * 2 ^ a) = 2 ^ a * (m % 2 ^ b) := by
    rw [Nat.mul_mod_mul_right, Nat.mul_comm]
  have hmod : m % 2 ^ b < 2 ^ b := Nat.mod_lt _ (Nat.two_pow_pos b)
  have hrM : r < 2 ^ b * 2 ^ a := by
    calc r < 2 ^ a := hr
      _ = 1 * 2 ^ a := (one_mul _).symm
      _ ≤ 2 ^ b * 2 ^ a := Nat.mul_le_mul_right _ Nat.one_le_two_pow
  have hsum : 2 ^ a * (m % 2 ^ b) + r < 2 ^ b * 2 ^ a := by
    calc 2 ^ a * (m % 2 ^ b) + r < 2 ^ a * (m % 2 ^ b) + 2 ^ a := by omega
      _ = (m % 2 ^ b + 1) * 2 ^ a := by ring
      _ ≤ 2 ^ b * 2 ^ a := Nat.mul_le_mul_right _ (by omega)
  rw [Nat.shiftLeft_eq, hpow, h1, ← Nat.mul_add_lt_is_or hr (m % 2 ^ b)]
  rw [Nat.add_mod, h1, Nat.mod_eq_of_lt hrM, Nat.mod_eq_of_lt hsum]

/-- The `u128` step of `Base36::encode` equals the `u128` step of
`Base58::encode` / `Base62::encode`. -/
theorem fold36_step_eq (n b : Nat) :
    ((n <<< 8) % U128) ||| (b % 256) = (n * 256 + b % 256) % U128 := by
  have hb : b % 256 < 2 ^ 8 := by
    have := Nat.mod_lt b (show 0 < 256 by norm_num)
    omega
  have hU : U128 = 2 ^ (120 + 8) := by norm_num [U128]
  rw [hU, shl_mod_or_eq n (b % 256) 8 120 hb]
  norm_num

/-- On byte lists the `% 256` masks in the accumulation are the identity. -/
theorem foldl_mask_eq : ∀ (bs : List Nat), (∀ b ∈ bs, b < 256) → ∀ (acc : Nat),
    bs.foldl (fun n b => (n * 256 + b % 256) % U128) acc =
      bs.foldl (fun n b => (n * 256 + b) % U128) acc
  | [], _, acc => rfl
  | b :: tl, h, acc => by
    have hb : b < 256 := h b (by simp)
    simp only [List.foldl_cons, Nat.mod_eq_of_lt hb]
    exact foldl_mask_eq tl (fun x hx => h x (by simp [hx])) _

/-- Big-endian byte values are bounded by `256 ^ length`. -/
theorem foldl_byteVal_lt (C : Nat) : ∀ (bs : List Nat), (∀ b ∈ bs, b < 256) →
    ∀ (acc : Nat), acc < C → bs.foldl (fun n b => n * 256 + b) acc < C * 256 ^ bs.length
  | [], _, acc, hacc => by simpa using hacc
  | b :: tl, h, acc, hacc => by
    simp only [List.foldl_cons, List.length_cons]
    have hb : b < 256 := h b (by simp)
    have : acc * 256 + b < C * 256 := by nlinarith
    calc tl.foldl (fun n b => n * 256 + b) (acc * 256 + b)
        < (C * 256) * 256 ^ tl.length :=
          foldl_byteVal_lt (C * 256) tl (fun x hx => h x (by simp [hx])) _ this
      _ = C * 256 ^ (tl.length + 1) := by ring

theorem byteVal_lt (bs : List Nat) (h : ∀ b ∈ bs, b < 256) :
    byteVal bs < 256 ^ bs.length := by
  simpa using foldl_byteVal_lt 1 bs h 0 (by omega)

theorem byteVal_lt_U128 (bs : List Nat) (h : ∀ b ∈ bs, b < 256)
    (hlen : bs.length ≤ 16) : byteVal bs < U128 := by
  calc byteVal bs < 256 ^ bs.length := byteVal_lt bs h
    _ ≤ 256 ^ 16 := Nat.pow_le_pow_right (by omega) hlen
    _ = U128 := by norm_num [U128]

/-- For inputs of at most 16 bytes the `u128` accumulation of
`Base58::encode` / `Base62::encode` computes the exact big-endian value. -/
theorem encodeNum_eq_byteVal (bs : List Nat) (h : ∀ b ∈ bs, b < 256)
    (hlen : bs.length ≤ 16) :
    bs.foldl (fun num byte => (num * 256 + byte % 256) % U128) 0 = byteVal bs := by
  rw [foldl_mask_eq bs h 0]
  exact foldl_horner_mod 256 U128 (by omega) bs 0 (byteVal_lt_U128 bs h hlen)

/-- The `Base36::encode` accumulation agrees with the `Base58` form. -/
theorem encodeNum36_eq (bs : List Nat) :
    bs.foldl (fun num byte => ((num <<< 8) % U128) ||| (byte % 256)) 0 =
      bs.foldl (fun num byte => (num * 256 + byte % 256) % U128) 0 := by
  have : (fun (num byte : Nat) => ((num <<< 8) % U128) ||| (byte % 256)) =
      (fun (num byte : Nat) => (num * 256 + byte % 256) % U128) :=
    funext fun n => funext fun b => fold36_step_eq n b
  rw [this]

theorem list_get?_eq_getD : ∀ (l : List Char) (i : Nat), i < l.length →
    l.get? i = some (l.getD i ' ')
  | [], i, h => by simp at h
  | c :: tl, 0, _ => rfl
  | c :: tl, i + 1, h => by
    simpa [List.get?, List.getD] using list_get?_eq_getD tl i (by simpa using h)

theorem base58_length : BASE58_ALPHABET.length = 58 := by decide

theorem base62_length : BASE62_ALPHABET.length = 62 := by decide

theorem base36_length : BASE36_ALPHABET.length = 36 := by decide

theorem base58_find_getD : ∀ d < 58,
    strFind (BASE58_ALPHABET.getD d ' ') BASE58_ALPHABET = some d := by decide

theorem base62_find_getD : ∀ d < 62,
    strFind (BASE62_ALPHABET.getD d ' ') BASE62_ALPHABET = some d := by decide

theorem base36_find_getD : ∀ d < 36,
    strFind (BASE36_ALPHABET.getD d ' ') BASE36_ALPHABET = some d := by decide

theorem base58_getD_one : ∀ d < 58, BASE58_ALPHABET.getD d ' ' = '1' → d = 0 := by decide

theorem base62_getD_zero : ∀ d < 62, BASE62_ALPHABET.getD d ' ' = '0' → d = 0 := by decide

/-- The digit loop of `Base58::encode` always succeeds and produces the
base-58 digit characters, least significant first. -/
theorem digitsLoop58_eq (num : Nat) :
    Base58.digitsLoop num =
      Except.ok ((Nat.digits 58 num).map (fun d => BASE58_ALPHABET.getD d ' ')) := by
  induction num using Nat.strong_induction_on with
  | _ num ih =>
    rw [Base58.digitsLoop]
    split
    · rename_i h
      subst h
      simp
    · rename_i h
      have hlt : num % 58 < 58 := Nat.mod_lt _ (by omega)
      rw [list_get?_eq_getD _ _ (by simpa [base58_length] using hlt)]
      rw [ih (num / 58) (Nat.div_lt_self (Nat.pos_of_ne_zero h) (by omega))]
      rw [Nat.digits_def' (by norm_num : (1 : Nat) < 58) (Nat.pos_of_ne_zero h)]
      simp

/-- The digit loop of `Base62::encode` always succeeds and produces the
base-62 digit characters, least significant first. -/
theorem digitsLoop62_eq (num : Nat) :
    Base62.digitsLoop num =
      Except.ok ((Nat.digits 62 num).map (fun d => BASE62_ALPHABET.getD d ' ')) := by
  induction num using Nat.strong_induction_on with
  | _ num ih =>
    rw [Base62.digitsLoop]
    split
    · rename_i h
      subst h
      simp
    · rename_i h
      have hlt : num % 62 < 62 := Nat.mod_lt _ (by omega)
      rw [list_get?_eq_getD _ _ (by simpa [base62_length] using hlt)]
      rw [ih (num / 62) (Nat.div_lt_self (Nat.pos_of_ne_zero h) (by omega))]
      rw [Nat.digits_def' (by norm_num : (1 : Nat) < 62) (Nat.pos_of_ne_zero h)]
      simp

/-- The digit loop of `Base36::encode` always succeeds and produces the
base-36 digit characters, least significant first. -/
theorem digitsLoop36_eq (num : Nat) :
    Base36.digitsLoop num =
      Except.ok ((Nat.digits 36 num).map (fun d => BASE36_ALPHABET.getD d ' ')) := by
  induction num using Nat.strong_induction_on with
  | _ num ih =>
    rw [Base36.digitsLoop]
    split
    · rename_i h
      subst h
      simp
    · rename_i h
      have hlt : num % 36 < 36 := Nat.mod_lt _ (by omega)
      rw [list_get?_eq_getD _ _ (by simpa [base36_length] using hlt)]
      rw [ih (num / 36) (Nat.div_lt_self (Nat.pos_of_ne_zero h) (by omega))]
      rw [Nat.digits_def' (by norm_num : (1 : Nat) < 36) (Nat.pos_of_ne_zero h)]
      simp

/-- The byte-extraction loop equals the little-endian base-256 digits. -/
theorem leBytesLoop_eq (num : Nat) : leBytesLoop num = Nat.digits 256 num := by
  induction num using Nat.strong_induction_on with
  | _ num ih =>
    rw [leBytesLoop]
    split
    · rename_i h
      subst h
      simp
    · rename_i h
      rw [ih (num / 256) (Nat.div_lt_self (Nat.pos_of_ne_zero h) (by omega))]
      rw [Nat.digits_def' (by norm_num : (1 : Nat) < 256) (Nat.pos_of_ne_zero h)]

/-- Decoding digit characters accumulates the modular Horner value. -/
theorem bigDecodeNum_map (radix : Nat) (alpha : List Char) (emsg : String)
    (hfind : ∀ d < alpha.length, strFind (alpha.getD d ' ') alpha = some d) :
    ∀ (ds : List Nat), (∀ d ∈ ds, d < alpha.length) → ∀ (acc : Nat),
    bigDecodeNum radix alpha emsg (ds.map (fun d => alpha.getD d ' ')) acc =
      Except.ok (ds.foldl (fun n d => (n * radix + d) % U128) acc)
  | [], _, acc => rfl
  | d :: tl, h, acc => by
    have hd := hfind d (h d (by simp))
    simp only [List.map_cons, bigDecodeNum, hd]
    exact bigDecodeNum_map radix alpha emsg hfind tl (fun x hx => h x (by simp [hx])) _

/-- The digit accumulation splits over appended strings. -/
theorem bigDecodeNum_append (radix : Nat) (alpha : List Char) (emsg : String) :
    ∀ (s1 s2 : List Char) (acc : Nat),
    bigDecodeNum radix alpha emsg (s1 ++ s2) acc =
      (match bigDecodeNum radix alpha emsg s1 acc with
       | Except.ok n => bigDecodeNum radix alpha emsg s2 n
       | Except.error e => Except.error e)
  | [], s2, acc => rfl
  | c :: tl, s2, acc => by
    simp only [List.cons_append, bigDecodeNum]
    cases strFind c alpha with
    | none => rfl
    | some i => exact bigDecodeNum_append radix alpha emsg tl s2 _

/-- Leading index-0 characters leave the accumulator at zero. -/
theorem bigDecodeNum_replicate_zero (radix : Nat) (alpha : List Char) (emsg : String)
    (c : Char) (hc : strFind c alpha = some 0) :
    ∀ (k : Nat), bigDecodeNum radix alpha emsg (List.replicate k c) 0 = Except.ok 0
  | 0 => rfl
  | k + 1 => by
    simp only [List.replicate_succ, bigDecodeNum, hc]
    simpa using bigDecodeNum_replicate_zero radix alpha emsg c hc k

theorem takeWhile_zero_eq_replicate (bs : List Nat) :
    bs.takeWhile (· = 0) = List.replicate (bs.takeWhile (· = 0)).length 0 :=
  List.eq_replicate_of_mem fun b hb => by
    simpa using List.mem_takeWhile_imp hb

theorem foldl_replicate_zero : ∀ (z : Nat),
    (List.replicate z 0).foldl (fun n b => n * 256 + b) 0 = 0
  | 0 => rfl
  | z + 1 => by
    simp only [List.replicate_succ, List.foldl_cons]
    simpa using foldl_replicate_zero z

theorem byteVal_zeros_append (z : Nat) (core : List Nat) :
    byteVal (List.replicate z 0 ++ core) = byteVal core := by
  unfold byteVal
  rw [List.foldl_append, foldl_replicate_zero]

theorem dropWhile_zero_head : ∀ (l : List Nat) (c : Nat),
    (l.dropWhile (· = 0)).head? = some c → c ≠ 0
  | [], c, h => by simp at h
  | b :: tl, c, h => by
    by_cases hb : b = 0
    · subst hb
      rw [List.dropWhile_cons_of_pos (by simp)] at h
      exact dropWhile_zero_head tl c h
    · rw [List.dropWhile_cons_of_neg (by simpa using hb)] at h
      simp only [List.head?_cons, Option.some.injEq] at h
      omega

theorem byteVal_eq_ofDigits (bs : List Nat) :
    byteVal bs = Nat.ofDigits 256 bs.reverse := by
  unfold byteVal
  rw [foldl_horner_acc 256 bs 0]
  simp

/-- The base-256 digits of the big-endian value of a byte list whose first
byte is nonzero are that list reversed. -/
theorem digits256_byteVal (core : List Nat) (h : ∀ b ∈ core, b < 256)
    (hhead : ∀ c, core.head? = some c → c ≠ 0) :
    Nat.digits 256 (byteVal core) = core.reverse := by
  rw [byteVal_eq_ofDigits]
  apply Nat.digits_ofDigits 256 (by norm_num) core.reverse
  · intro l hl
    exact h l (by simpa using hl)
  · intro hne
    have hne' : core ≠ [] := fun hc => by simp [hc] at hne
    obtain ⟨c, tl, rfl⟩ := List.exists_cons_of_ne_nil hne'
    rw [List.getLast_reverse]
    exact fun h0 => hhead c rfl (by simpa using h0)

/-- Prepending matching characters extends `takeWhile` by them. -/
theorem takeWhile_replicate_append (x : Char) : ∀ (z : Nat) (rest : List Char),
    (∀ c, rest.head? = some c → c ≠ x) →
    (List.replicate z x ++ rest).takeWhile (· = x) = List.replicate z x
  | 0, rest, h => by
    cases rest with
    | nil => rfl
    | cons c tl =>
      simpa [List.takeWhile_cons] using fun hc => (h c rfl hc).elim
  | z + 1, rest, h => by
    simp only [List.replicate_succ, List.cons_append]
    rw [List.takeWhile_cons_of_pos (by simp)]
    rw [takeWhile_replicate_append x z rest h]

/-- Decoding the spec digit string of a value `V < U128`, preceded by `z`
index-0 characters, recovers exactly `V`. -/
theorem bigDecodeNum_spec_string (radix : Nat) (hr : 2 ≤ radix)
    (alpha : List Char) (emsg : String) (R : Nat) (hlenR : alpha.length = R)
    (hRr : radix ≤ R)
    (hfind : ∀ d < R, strFind (alpha.getD d ' ') alpha = some d)
    (zc : Char) (hzc : strFind zc alpha = some 0)
    (z V : Nat) (hV : V < U128) :
    bigDecodeNum radix alpha emsg
      (List.replicate z zc ++ ((Nat.digits radix V).map (fun d => alpha.getD d ' ')).reverse)
      0 = Except.ok V := by
  rw [bigDecodeNum_append, bigDecodeNum_replicate_zero radix alpha emsg zc hzc z]
  show bigDecodeNum radix alpha emsg
    (((Nat.digits radix V).map (fun d => alpha.getD d ' ')).reverse) 0 = Except.ok V
  rw [← List.map_reverse]
  rw [bigDecodeNum_map radix alpha emsg
    (by rw [hlenR]; exact hfind)
    (Nat.digits radix V).reverse
    (fun d hd => by
      rw [hlenR]
      have : d < radix := Nat.digits_lt_base (by omega) (by simpa using hd)
      omega) 0]
  have hfold : (Nat.digits radix V).reverse.foldl (fun n d => n * radix + d) 0 = V := by
    rw [foldl_horner_acc radix _ 0, List.reverse_reverse]
    simp [Nat.ofDigits_digits]
  rw [foldl_horner_mod radix U128 (by omega) _ 0 (by rw [hfold]; exact hV), hfold]

/-- The leading index-0 run of the spec digit string has exactly length `z`. -/
theorem takeWhile_spec_string (radix : Nat) (hr : 2 ≤ radix)
    (alpha : List Char) (R : Nat) (hlenR : alpha.length = R) (hRr : radix ≤ R)
    (zc : Char) (hgd : ∀ d < R, alpha.getD d ' ' = zc → d = 0)
    (z V : Nat) (hV0 : 0 < V) :
    ((List.replicate z zc ++
        ((Nat.digits radix V).map (fun d => alpha.getD d ' ')).reverse).takeWhile
      (· = zc)).length = z := by
  rw [takeWhile_replicate_append]
  · simp
  · intro c hc
    rw [List.head?_reverse, List.getLast?_map] at hc
    have hne : Nat.digits radix V ≠ [] := by
      rw [Nat.digits_ne_nil_iff_ne_zero]
      omega
    obtain ⟨d, hd, rfl⟩ : ∃ d, (Nat.digits radix V).getLast? = some d ∧
        c = alpha.getD d ' ' := by
      cases hgl : (Nat.digits radix V).getLast? with
      | none => simp [hgl] at hc
      | some d =>
        rw [hgl] at hc
        exact ⟨d, rfl, by simpa using hc.symm⟩
    have hdlt : d < radix :=
      Nat.digits_lt_base (by omega) (List.mem_of_getLast?_eq_some hd)
    have hdne : d ≠ 0 := by
      have hlast := Nat.getLast_digit_ne_zero radix (m := V) (by omega)
      rw [List.getLast?_eq_getLast _ hne, Option.some.injEq] at hd
      exact fun h0 => hlast (hd.trans h0)
    intro hceq
    exact hdne (hgd d (by omega) hceq)

/-- For inputs of at most 16 bytes, `Base58::encode` computes the unbounded
positional encoding. -/
theorem encode58_eq (bs : List Nat) (hb : ∀ b ∈ bs, b < 256) (hlen : bs.length ≤ 16) :
    Base58.encode bs = Except.ok (spec58Encode bs) := by
  show (match Base58.digitsLoop
      (bs.foldl (fun num byte => (num * 256 + byte % 256) % U128) 0) with
    | Except.error e => Except.error e
    | Except.ok ds => Except.ok ((ds ++ List.replicate (bs.takeWhile (· = 0)).length
        BASE58_ALPHABET.headI).reverse)) = _
  rw [encodeNum_eq_byteVal bs hb hlen, digitsLoop58_eq]
  rfl

/-- For inputs of at most 16 bytes, `Base62::encode` computes the unbounded
positional encoding. -/
theorem encode62_eq (bs : List Nat) (hb : ∀ b ∈ bs, b < 256) (hlen : bs.length ≤ 16) :
    Base62.encode bs = Except.ok (spec62Encode bs) := by
  show (match Base62.digitsLoop
      (bs.foldl (fun num byte => (num * 256 + byte % 256) % U128) 0) with
    | Except.error e => Except.error e
    | Except.ok ds => Except.ok ((ds ++ List.replicate (bs.takeWhile (· = 0)).length
        BASE62_ALPHABET.headI).reverse)) = _
  rw [encodeNum_eq_byteVal bs hb hlen, digitsLoop62_eq]
  rfl

/-- For inputs of at most 16 bytes, `Base36::encode` computes the unbounded
positional encoding. -/
theorem encode36_eq (bs : List Nat) (hb : ∀ b ∈ bs, b < 256) (hlen : bs.length ≤ 16) :
    Base36.encode bs = Except.ok (spec36Encode bs) := by
  show (match Base36.digitsLoop
      (bs.foldl (fun num byte => ((num <<< 8) % U128) ||| (byte % 256)) 0) with
    | Except.error e => Except.error e
    | Except.ok ds => Except.ok ((if ds.isEmpty then ['0'] else ds).reverse)) = _
  rw [encodeNum36_eq, encodeNum_eq_byteVal bs hb hlen, digitsLoop36_eq]
  rcases Nat.eq_zero_or_pos (byteVal bs) with h0 | hpos
  · simp [spec36Encode, h0]
  · have hne : Nat.digits 36 (byteVal bs) ≠ [] := by
      rw [Nat.digits_ne_nil_iff_ne_zero]
      omega
    simp only [spec36Encode, List.isEmpty_eq_true, List.map_eq_nil_iff, hne, if_false]

/-- Decoding the unbounded positional Base58 encoding restores the bytes
(for inputs of at most 16 bytes). -/
theorem decode58_spec58 (bs : List Nat) (hb : ∀ b ∈ bs, b < 256)
    (hlen : bs.length ≤ 16) :
    Base58.decode (spec58Encode bs) = Except.ok bs := by
  have hdecomp : bs = List.replicate (bs.takeWhile (· = 0)).length 0 ++
      bs.dropWhile (· = 0) := by
    conv_lhs => rw [← List.takeWhile_append_dropWhile (p := fun b => b = 0) (l := bs)]
    rw [← takeWhile_zero_eq_replicate]
  have hbcore : ∀ b ∈ bs.dropWhile (· = 0), b < 256 := fun b hbc =>
    hb b ((List.dropWhile_sublist _).subset hbc)
  have hVcore : byteVal bs = byteVal (bs.dropWhile (· = 0)) := by
    conv_lhs => rw [hdecomp]
    exact byteVal_zeros_append _ _
  have hdig : Nat.digits 256 (byteVal (bs.dropWhile (· = 0))) =
      (bs.dropWhile (· = 0)).reverse :=
    digits256_byteVal _ hbcore (dropWhile_zero_head bs)
  have hspec : spec58Encode bs = List.replicate (bs.takeWhile (· = 0)).length '1' ++
      ((Nat.digits 58 (byteVal bs)).map (fun d => BASE58_ALPHABET.getD d ' ')).reverse := by
    unfold spec58Encode
    rw [List.reverse_append, List.reverse_replicate]
  have hU : byteVal bs < U128 := byteVal_lt_U128 bs hb hlen
  show (match bigDecodeNum 58 BASE58_ALPHABET "invalid base58 character"
      (spec58Encode bs) 0 with
    | Except.error e => Except.error e
    | Except.ok num => Except.ok ((leBytesLoop num ++
        List.replicate ((spec58Encode bs).takeWhile
          (· = BASE58_ALPHABET.headI)).length 0).reverse)) = _
  rw [show BASE58_ALPHABET.headI = '1' from rfl]
  conv_lhs => rw [hspec]
  rw [bigDecodeNum_spec_string 58 (by omega) BASE58_ALPHABET _ 58 base58_length
    (le_refl 58) base58_find_getD '1' (by decide) _ _ hU]
  have hbytes : Nat.digits 256 (byteVal bs) = (bs.dropWhile (· = 0)).reverse := by
    rw [hVcore]
    exact hdig
  show Except.ok ((leBytesLoop (byteVal bs) ++ _).reverse) = _
  rw [leBytesLoop_eq, hbytes]
  rcases Nat.eq_zero_or_pos (byteVal bs) with h0 | hpos
  · have hcorenil : bs.dropWhile (· = 0) = [] := by
      have h1 := hbytes
      rw [h0] at h1
      simpa using h1.symm
    have htw : (List.replicate (bs.takeWhile (· = 0)).length '1').takeWhile
        (· = '1') = List.replicate (bs.takeWhile (· = 0)).length '1' := by
      have h2 := takeWhile_replicate_append '1' (bs.takeWhile (· = 0)).length []
        (by simp)
      simpa using h2
    rw [hcorenil, h0]
    simp only [Nat.digits_zero, List.map_nil, List.reverse_nil, List.append_nil,
      List.nil_append]
    rw [htw]
    simp only [List.length_replicate, List.reverse_replicate]
    conv_rhs => rw [hdecomp, hcorenil]
    simp
  · rw [takeWhile_spec_string 58 (by omega) BASE58_ALPHABET 58 base58_length
      (le_refl 58) '1' base58_getD_one _ _ hpos]
    rw [List.reverse_append, List.reverse_reverse, List.reverse_replicate]
    exact congrArg Except.ok hdecomp.symm

/-- Decoding the unbounded positional Base62 encoding restores the bytes
(for inputs of at most 16 bytes). -/
theorem decode62_spec62 (bs : List Nat) (hb : ∀ b ∈ bs, b < 256)
    (hlen : bs.length ≤ 16) :
    Base62.decode (spec62Encode bs) = Except.ok bs := by
  have hdecomp : bs = List.replicate (bs.takeWhile (· = 0)).length 0 ++
      bs.dropWhile (· = 0) := by
    conv_lhs => rw [← List.takeWhile_append_dropWhile (p := fun b => b = 0) (l := bs)]
    rw [← takeWhile_zero_eq_replicate]
  have hbcore : ∀ b ∈ bs.dropWhile (· = 0), b < 256 := fun b hbc =>
    hb b ((List.dropWhile_sublist _).subset hbc)
  have hVcore : byteVal bs = byteVal (bs.dropWhile (· = 0)) := by
    conv_lhs => rw [hdecomp]
    exact byteVal_zeros_append _ _
  have hdig : Nat.digits 256 (byteVal (bs.dropWhile (· = 0))) =
      (bs.dropWhile (· = 0)).reverse :=
    digits256_byteVal _ hbcore (dropWhile_zero_head bs)
  have hspec : spec62Encode bs = List.replicate (bs.takeWhile (· = 0)).length '0' ++
      ((Nat.digits 62 (byteVal bs)).map (fun d => BASE62_ALPHABET.getD d ' ')).reverse := by
    unfold spec62Encode
    rw [List.reverse_append, List.reverse_replicate]
  have hU : byteVal bs < U128 := byteVal_lt_U128 bs hb hlen
  show (match bigDecodeNum 62 BASE62_ALPHABET "invalid base62 character"
      (spec62Encode bs) 0 with
    | Except.error e => Except.error e
    | Except.ok num => Except.ok ((leBytesLoop num ++
        List.replicate ((spec62Encode bs).takeWhile
          (· = BASE62_ALPHABET.headI)).length 0).reverse)) = _
  rw [show BASE62_ALPHABET.headI = '0' from rfl]
  conv_lhs => rw [hspec]
  rw [bigDecodeNum_spec_string 62 (by omega) BASE62_ALPHABET _ 62 base62_length
    (le_refl 62) base62_find_getD '0' (by decide) _ _ hU]
  have hbytes : Nat.digits 256 (byteVal bs) = (bs.dropWhile (· = 0)).reverse := by
    rw [hVcore]
    exact hdig
  show Except.ok ((leBytesLoop (byteVal bs) ++ _).reverse) = _
  rw [leBytesLoop_eq, hbytes]
  rcases Nat.eq_zero_or_pos (byteVal bs) with h0 | hpos
  · have hcorenil : bs.dropWhile (· = 0) = [] := by
      have h1 := hbytes
      rw [h0] at h1
      simpa using h1.symm
    have htw : (List.replicate (bs.takeWhile (· = 0)).length '0').takeWhile
        (· = '0') = List.replicate (bs.takeWhile (· = 0)).length '0' := by
      have h2 := takeWhile_replicate_append '0' (bs.takeWhile (· = 0)).length []
        (by simp)
      simpa using h2
    rw [hcorenil, h0]
    simp only [Nat.digits_zero, List.map_nil, List.reverse_nil, List.append_nil,
      List.nil_append]
    rw [htw]
    simp only [List.length_replicate, List.reverse_replicate]
    conv_rhs => rw [hdecomp, hcorenil]
    simp
  · rw [takeWhile_spec_string 62 (by omega) BASE62_ALPHABET 62 base62_length
      (le_refl 62) '0' base62_getD_zero _ _ hpos]
    rw [List.reverse_append, List.reverse_reverse, List.reverse_replicate]
    exact congrArg Except.ok hdecomp.symm

/-- Decoding the unbounded positional Base36 encoding restores the bytes with
leading zero bytes removed (for inputs of at most 16 bytes). -/
theorem decode36_spec36 (bs : List Nat) (hb : ∀ b ∈ bs, b < 256)
    (hlen : bs.length ≤ 16) :
    Base36.decode (spec36Encode bs) = Except.ok (bs.dropWhile (· = 0)) := by
  have hdecomp : bs = List.replicate (bs.takeWhile (· = 0)).length 0 ++
      bs.dropWhile (· = 0) := by
    conv_lhs => rw [← List.takeWhile_append_dropWhile (p := fun b => b = 0) (l := bs)]
    rw [← takeWhile_zero_eq_replicate]
  have hbcore : ∀ b ∈ bs.dropWhile (· = 0), b < 256 := fun b hbc =>
    hb b ((List.dropWhile_sublist _).subset hbc)
  have hVcore : byteVal bs = byteVal (bs.dropWhile (· = 0)) := by
    conv_lhs => rw [hdecomp]
    exact byteVal_zeros_append _ _
  have hdig : Nat.digits 256 (byteVal (bs.dropWhile (· = 0))) =
      (bs.dropWhile (· = 0)).reverse :=
    digits256_byteVal _ hbcore (dropWhile_zero_head bs)
  have hU : byteVal bs < U128 := byteVal_lt_U128 bs hb hlen
  rcases Nat.eq_zero_or_pos (byteVal bs) with h0 | hpos
  · have hcorenil : bs.dropWhile (· = 0) = [] := by
      have := hdig
      rw [← hVcore, h0] at this
      simpa using this.symm
    have hs0 : spec36Encode bs = ['0'] := by
      unfold spec36Encode
      simp [h0]
    rw [hs0, hcorenil]
    show (match bigDecodeNum 36 BASE36_ALPHABET "invalid base36 character" ['0'] 0 with
      | Except.error e => Except.error e
      | Except.ok num => Except.ok (leBytesLoop num).reverse) = _
    have : bigDecodeNum 36 BASE36_ALPHABET "invalid base36 character" ['0'] 0 =
        Except.ok 0 := by
      show bigDecodeNum 36 BASE36_ALPHABET "invalid base36 character"
        (List.replicate 1 '0') 0 = Except.ok 0
      exact bigDecodeNum_replicate_zero 36 BASE36_ALPHABET _ '0' (by decide) 1
    rw [this]
    show Except.ok (leBytesLoop 0).reverse = _
    rw [leBytesLoop_eq]
    simp
  · have hne : Nat.digits 36 (byteVal bs) ≠ [] := by
      rw [Nat.digits_ne_nil_iff_ne_zero]
      omega
    have hs1 : spec36Encode bs =
        ((Nat.digits 36 (byteVal bs)).map (fun d => BASE36_ALPHABET.getD d ' ')).reverse := by
      unfold spec36Encode
      simp only [List.isEmpty_eq_true, List.map_eq_nil_iff, hne, if_false]
    rw [hs1]
    show (match bigDecodeNum 36 BASE36_ALPHABET "invalid base36 character"
        (((Nat.digits 36 (byteVal bs)).map (fun d => BASE36_ALPHABET.getD d ' ')).reverse) 0 with
      | Except.error e => Except.error e
      | Except.ok num => Except.ok (leBytesLoop num).reverse) = _
    have hdecode := bigDecodeNum_spec_string 36 (by omega) BASE36_ALPHABET
      "invalid base36 character" 36 base36_length (le_refl 36) base36_find_getD
      '0' (by decide) 0 (byteVal bs) hU
    simp only [List.replicate_zero, List.nil_append] at hdecode
    rw [hdecode]
    show Except.ok (leBytesLoop (byteVal bs)).reverse = _
    rw [leBytesLoop_eq, hVcore, hdig]
    simp

/-! ### Bit-packing machinery (Base32 / Base64) -/

theorem two_pow_pos' (n : Nat) : 0 < 2 ^ n := Nat.two_pow_pos n

/-- Appending `t2` bits then shifting them (and `s` more) out recovers a
shift of the original. -/
theorem shifted_add_div (v1 v2 t2 s : Nat) (h : v2 < 2 ^ t2) :
    (v1 * 2 ^ t2 + v2) / 2 ^ (t2 + s) = v1 / 2 ^ s := by
  rw [pow_add, ← Nat.div_div_eq_div_mul, Nat.mul_comm v1, Nat.mul_add_div (two_pow_pos' t2),
    Nat.div_eq_of_lt h, Nat.add_zero]

theorem mul_add_lt_pow (a b s t2 : Nat) (ha : a < 2 ^ s) (hb : b < 2 ^ t2) :
    a * 2 ^ t2 + b < 2 ^ s * 2 ^ t2 := by
  calc a * 2 ^ t2 + b < a * 2 ^ t2 + 2 ^ t2 := by omega
    _ = (a + 1) * 2 ^ t2 := by ring
    _ ≤ 2 ^ s * 2 ^ t2 := Nat.mul_le_mul_right _ (by omega)

/-- Truncating an appended bit string keeps the low appended bits and
truncates the high part. -/
theorem shifted_add_mod (v1 v2 t2 s : Nat) (h : v2 < 2 ^ t2) :
    (v1 * 2 ^ t2 + v2) % 2 ^ (s + t2) = (v1 % 2 ^ s) * 2 ^ t2 + v2 := by
  rw [pow_add, Nat.add_mod, Nat.mul_mod_mul_right,
    Nat.mod_eq_of_lt (lt_of_lt_of_le h (Nat.le_mul_of_pos_left _ (two_pow_pos' s))),
    Nat.mod_eq_of_lt (mul_add_lt_pow _ _ _ _ (Nat.mod_lt _ (two_pow_pos' s)) h)]

theorem mod_pow_mod (x m k : Nat) (h : k ≤ m) : (x % 2 ^ m) % 2 ^ k = x % 2 ^ k :=
  Nat.mod_mod_of_dvd x (pow_dvd_pow 2 h)

theorem topGroups_pos (g t v : Nat) (hg : 0 < g) (hle : g ≤ t) :
    topGroups g t v = (v >>> (t - g)) :: topGroups g (t - g) (v % 2 ^ (t - g)) := by
  rw [topGroups]
  exact dif_pos ⟨hg, hle⟩

theorem topGroups_neg (g t v : Nat) (h : ¬(0 < g ∧ g ≤ t)) : topGroups g t v = [] := by
  rw [topGroups]
  exact dif_neg h

/-- Splitting a bit string at a byte-aligned point splits its group list,
with the remainder bits carried into the second part. -/
theorem topGroups_split (g : Nat) (hg : 0 < g) : ∀ (t1 : Nat) (v1 t2 v2 : Nat),
    v1 < 2 ^ t1 → v2 < 2 ^ t2 →
    topGroups g (t1 + t2) (v1 * 2 ^ t2 + v2) =
      topGroups g t1 v1 ++
        topGroups g (t1 % g + t2) ((v1 % 2 ^ (t1 % g)) * 2 ^ t2 + v2) := by
  intro t1
  induction t1 using Nat.strong_induction_on with
  | _ t1 ih =>
    intro v1 t2 v2 hv1 hv2
    by_cases hle : g ≤ t1
    · rw [topGroups_pos g (t1 + t2) _ hg (by omega), topGroups_pos g t1 v1 hg hle]
      have hmodeq : (t1 - g) % g = t1 % g := by
        conv_rhs => rw [show t1 = (t1 - g) + g by omega]
        rw [Nat.add_mod_right]
      have hsle : t1 % g ≤ t1 - g := by
        rw [← hmodeq]
        exact Nat.mod_le _ _
      have hhead : (v1 * 2 ^ t2 + v2) >>> (t1 + t2 - g) = v1 >>> (t1 - g) := by
        rw [Nat.shiftRight_eq_div_pow, Nat.shiftRight_eq_div_pow,
          show t1 + t2 - g = t2 + (t1 - g) by omega]
        exact shifted_add_div v1 v2 t2 (t1 - g) hv2
      have htail : (v1 * 2 ^ t2 + v2) % 2 ^ (t1 + t2 - g) =
          (v1 % 2 ^ (t1 - g)) * 2 ^ t2 + v2 := by
        rw [show t1 + t2 - g = (t1 - g) + t2 by omega]
        exact shifted_add_mod v1 v2 t2 (t1 - g) hv2
      rw [hhead, htail, show t1 + t2 - g = (t1 - g) + t2 by omega]
      rw [ih (t1 - g) (by omega) (v1 % 2 ^ (t1 - g)) t2 v2
        (Nat.mod_lt _ (two_pow_pos' _)) hv2]
      rw [hmodeq, mod_pow_mod v1 (t1 - g) (t1 % g) hsle, List.cons_append]
    · rw [topGroups_neg g t1 v1 (by omega), List.nil_append,
        Nat.mod_eq_of_lt (show t1 < g by omega), Nat.mod_eq_of_lt hv1]

/-- Every emitted group value fits in `g` bits. -/
theorem topGroups_lt (g : Nat) : ∀ (t : Nat) (v : Nat), v < 2 ^ t →
    ∀ i ∈ topGroups g t v, i < 2 ^ g := by
  intro t
  induction t using Nat.strong_induction_on with
  | _ t ih =>
    intro v hv i hi
    by_cases hc : 0 < g ∧ g ≤ t
    · rw [topGroups_pos g t v hc.1 hc.2] at hi
      rcases List.mem_cons.1 hi with h | h
      · subst h
        rw [Nat.shiftRight_eq_div_pow]
        rw [Nat.div_lt_iff_lt_mul (two_pow_pos' _)]
        calc v < 2 ^ t := hv
          _ = 2 ^ g * 2 ^ (t - g) := by
            rw [← pow_add]
            congr 1
            omega
      · exact ih (t - g) (by omega) _ (Nat.mod_lt _ (two_pow_pos' _)) i h
    · rw [topGroups_neg g t v hc] at hi
      simp at hi

theorem topGroups_length (g : Nat) (hg : 0 < g) : ∀ (t v : Nat),
    (topGroups g t v).length = t / g := by
  intro t
  induction t using Nat.strong_induction_on with
  | _ t ih =>
    intro v
    by_cases hle : g ≤ t
    · rw [topGroups_pos g t v hg hle, List.length_cons, ih (t - g) (by omega)]
      rw [Nat.div_eq_sub_div hg hle]
    · rw [topGroups_neg g t v (by omega)]
      simp [Nat.div_eq_of_lt (show t < g by omega)]

theorem groupVal_nil (g : Nat) : groupVal g [] = 0 := by
  simp [groupVal, Nat.ofDigits]

theorem groupVal_cons (g : Nat) (a : Nat) (l : List Nat) :
    groupVal g (a :: l) = groupVal g l + a * (2 ^ g) ^ l.length := by
  unfold groupVal
  rw [List.reverse_cons, Nat.ofDigits_append]
  simp [Nat.ofDigits_singleton]
  ring

/-- The value carried by the complete groups is the bit string without its
trailing `t % g` bits. -/
theorem topGroups_val (g : Nat) (hg : 0 < g) : ∀ (t v : Nat), v < 2 ^ t →
    groupVal g (topGroups g t v) = v / 2 ^ (t % g) := by
  intro t
  induction t using Nat.strong_induction_on with
  | _ t ih =>
    intro v hv
    by_cases hle : g ≤ t
    · rw [topGroups_pos g t v hg hle, groupVal_cons,
        ih (t - g) (by omega) _ (Nat.mod_lt _ (two_pow_pos' _)),
        topGroups_length g hg]
      have hmodeq : (t - g) % g = t % g := by
        conv_rhs => rw [show t = (t - g) + g by omega]
        rw [Nat.add_mod_right]
      have hsle : t % g ≤ t - g := by
        rw [← hmodeq]
        exact Nat.mod_le _ _
      rw [hmodeq]
      have hqm : g * ((t - g) / g) + (t - g) % g = t - g := Nat.div_add_mod _ _
      have hpow2 : ((2 : Nat) ^ g) ^ ((t - g) / g) = 2 ^ (t - g - t % g) := by
        rw [← pow_mul]
        congr 1
        omega
      have hkey : ∀ A B : Nat, (2 ^ (t - g) * A + B) / 2 ^ (t % g) =
          B / 2 ^ (t % g) + A * 2 ^ (t - g - t % g) := by
        intro A B
        rw [show (2 : Nat) ^ (t - g) = 2 ^ (t % g) * 2 ^ (t - g - t % g) by
          rw [← pow_add]
          congr 1
          omega]
        rw [Nat.mul_assoc, Nat.mul_add_div (two_pow_pos' _)]
        ring
      rw [Nat.shiftRight_eq_div_pow, hpow2]
      conv_rhs => rw [← Nat.div_add_mod v (2 ^ (t - g))]
      rw [hkey (v / 2 ^ (t - g)) (v % 2 ^ (t - g))]
    · rw [topGroups_neg g t v (by omega), groupVal_nil,
        Nat.mod_eq_of_lt (by omega), Nat.div_eq_of_lt hv]

theorem byteVal_cons (b : Nat) (tl : List Nat) :
    byteVal (b :: tl) = b * 2 ^ (8 * tl.length) + byteVal tl := by
  unfold byteVal
  rw [List.foldl_cons, foldl_horner_acc 256 tl (0 * 256 + b),
    foldl_horner_acc 256 tl 0, Nat.zero_mul, Nat.zero_add, Nat.zero_mul, Nat.zero_add]
  congr 1
  rw [show (256 : Nat) = 2 ^ 8 from rfl, ← pow_mul]

theorem byteVal_lt_two_pow (bs : List Nat) (h : ∀ b ∈ bs, b < 256) :
    byteVal bs < 2 ^ (8 * bs.length) := by
  have := byteVal_lt bs h
  rwa [show (256 : Nat) = 2 ^ 8 from rfl, ← pow_mul] at this

/-- Cutting the bit string of a byte list into 8-bit groups gives back the
bytes. -/
theorem topGroups8_bytes : ∀ (bs : List Nat), (∀ b ∈ bs, b < 256) →
    topGroups 8 (8 * bs.length) (byteVal bs) = bs
  | [], _ => by
    rw [topGroups_neg 8 _ _ (by simp)]
  | b :: tl, h => by
    have hb : b < 256 := h b (by simp)
    have htl : ∀ x ∈ tl, x < 256 := fun x hx => h x (by simp [hx])
    have hV : byteVal tl < 2 ^ (8 * tl.length) := byteVal_lt_two_pow tl htl
    rw [byteVal_cons, topGroups_pos 8 _ _ (by omega) (by simp [List.length_cons])]
    have ht : 8 * (b :: tl).length - 8 = 8 * tl.length := by
      simp only [List.length_cons]
      omega
    rw [ht]
    have hhead : (b * 2 ^ (8 * tl.length) + byteVal tl) >>> (8 * tl.length) = b := by
      rw [Nat.shiftRight_eq_div_pow]
      rw [Nat.mul_comm b, Nat.mul_add_div (two_pow_pos' _), Nat.div_eq_of_lt hV]
      omega
    have htail : (b * 2 ^ (8 * tl.length) + byteVal tl) % 2 ^ (8 * tl.length) =
        byteVal tl := by
      rw [Nat.mul_add_mod', Nat.mod_eq_of_lt hV]
    rw [hhead, htail, topGroups8_bytes tl htl]

/-- Extracting `g` bits at `bl - g` from the buffer only reads its low
`bl` bits. -/
theorem extract_eq (buffer bl g : Nat) (hle : g ≤ bl) :
    (buffer >>> (bl - g)) &&& (2 ^ g - 1) = (buffer % 2 ^ bl) >>> (bl - g) := by
  rw [Nat.and_pow_two_sub_one_eq_mod, Nat.shiftRight_eq_div_pow, Nat.shiftRight_eq_div_pow]
  rw [← Nat.mod_mul_right_div_self, ← pow_add,
    show bl - g + g = bl by omega]

/-- The emission loop produces the complete groups of the pending bits and
leaves `bits_left` reduced below `g`. -/
theorem emitGroups_eq (g : Nat) (hg : 0 < g) : ∀ (bl : Nat) (buffer : Nat),
    emitGroups g buffer bl = (topGroups g bl (buffer % 2 ^ bl), bl % g) := by
  intro bl
  induction bl using Nat.strong_induction_on with
  | _ bl ih =>
    intro buffer
    by_cases hle : g ≤ bl
    · rw [emitGroups, dif_pos ⟨hg, hle⟩]
      rw [ih (bl - g) (by omega) buffer]
      rw [topGroups_pos g bl _ hg hle]
      rw [extract_eq buffer bl g hle]
      rw [mod_pow_mod buffer bl (bl - g) (by omega)]
      have hmodeq : (bl - g) % g = bl % g := by
        conv_rhs => rw [show bl = (bl - g) + g by omega]
        rw [Nat.add_mod_right]
      rw [hmodeq]
    · rw [emitGroups, dif_neg (by omega)]
      rw [topGroups_neg g bl _ (by omega), Nat.mod_eq_of_lt (by omega)]

/-- When every index is in range, the alphabet lookups succeed. -/
theorem mapAlphabet_ok (alpha : List Char) : ∀ (idxs : List Nat),
    (∀ i ∈ idxs, i < alpha.length) →
    mapAlphabet alpha idxs = Except.ok (idxs.map (fun i => alpha.getD i ' '))
  | [], _ => rfl
  | i :: rest, h => by
    rw [mapAlphabet, list_get?_eq_getD alpha i (h i (by simp))]
    rw [mapAlphabet_ok alpha rest (fun x hx => h x (by simp [hx]))]
    rfl

/-- The final-partial-group index: the pending bits left-shifted to fill
`g` bits. -/
theorem final_index_eq (g buf k : Nat) (hkg : k ≤ g) (hgle : g ≤ 32) :
    ((buf <<< (g - k)) % U32) &&& (2 ^ g - 1) = (buf % 2 ^ k) * 2 ^ (g - k) := by
  rw [Nat.and_pow_two_sub_one_eq_mod]
  rw [show U32 = 2 ^ 32 from rfl, mod_pow_mod _ 32 g hgle]
  rw [Nat.shiftLeft_eq]
  rw [show (2 : Nat) ^ g = 2 ^ k * 2 ^ (g - k) by
    rw [← pow_add]
    congr 1
    omega]
  exact Nat.mul_mod_mul_right _ _ _

/-- The per-byte encoder loop: emits the alphabet characters of all complete
groups of pending-bits-plus-input, ends with `bits_left = (bl + 8n) % g`, and
the final buffer holds the remaining bits of the stream. -/
theorem packEncodeLoop_spec (g : Nat) (hg : 0 < g) (hgle : g + 8 ≤ 32)
    (alpha : List Char) (hlen : alpha.length = 2 ^ g) :
    ∀ (bs : List Nat) (buffer bl : Nat), (∀ b ∈ bs, b < 256) → bl < g →
    ∃ bufF,
      packEncodeLoop g alpha bs buffer bl =
        Except.ok ((topGroups g (bl + 8 * bs.length)
            ((buffer % 2 ^ bl) * 2 ^ (8 * bs.length) + byteVal bs)).map
              (fun i => alpha.getD i ' '),
          bufF, (bl + 8 * bs.length) % g) ∧
      bufF % 2 ^ ((bl + 8 * bs.length) % g) =
        ((buffer % 2 ^ bl) * 2 ^ (8 * bs.length) + byteVal bs) %
          2 ^ ((bl + 8 * bs.length) % g)
  | [], buffer, bl, _, hbl => by
    refine ⟨buffer, ?_, ?_⟩
    · show Except.ok ([], buffer, bl) = _
      simp only [List.length_nil, Nat.mul_zero, Nat.add_zero]
      rw [topGroups_neg g bl _ (by omega), Nat.mod_eq_of_lt hbl, List.map_nil]
    · simp only [List.length_nil, Nat.mul_zero, Nat.add_zero, Nat.mod_eq_of_lt hbl,
        pow_zero, Nat.mul_one]
      show buffer % 2 ^ bl = (buffer % 2 ^ bl + byteVal []) % 2 ^ bl
      rw [show byteVal [] = 0 from rfl, Nat.add_zero, mod_pow_mod buffer bl bl (le_refl bl)]
  | b :: bs', buffer, bl, hb, hbl => by
    have hb256 : b < 256 := hb b (by simp)
    have hbs' : ∀ x ∈ bs', x < 256 := fun x hx => hb x (by simp [hx])
    have hVbs' : byteVal bs' < 2 ^ (8 * bs'.length) := byteVal_lt_two_pow bs' hbs'
    have hor : ((buffer <<< 8) % U32) ||| (b % 256) = (buffer * 2 ^ 8 + b) % U32 := by
      have h1 : b % 256 < 2 ^ 8 := by
        have := Nat.mod_lt b (show 0 < 256 by norm_num)
        omega
      rw [show U32 = 2 ^ (24 + 8) from rfl]
      rw [shl_mod_or_eq buffer (b % 256) 8 24 h1]
      rw [Nat.mod_eq_of_lt hb256]
    have hb1mod : ((buffer * 2 ^ 8 + b) % U32) % 2 ^ (bl + 8) =
        (buffer % 2 ^ bl) * 2 ^ 8 + b := by
      rw [show U32 = 2 ^ 32 from rfl, mod_pow_mod _ 32 (bl + 8) (by omega)]
      exact shifted_add_mod buffer b 8 bl hb256
    have hpend8lt : (buffer % 2 ^ bl) * 2 ^ 8 + b < 2 ^ (bl + 8) := by
      rw [pow_add]
      exact mul_add_lt_pow _ _ _ _ (Nat.mod_lt _ (two_pow_pos' _)) hb256
    have hemit := emitGroups_eq g hg (bl + 8) ((buffer * 2 ^ 8 + b) % U32)
    rw [hb1mod] at hemit
    have hmap := mapAlphabet_ok alpha
      (topGroups g (bl + 8) ((buffer % 2 ^ bl) * 2 ^ 8 + b))
      (fun i hi => by
        rw [hlen]
        exact topGroups_lt g (bl + 8) _ hpend8lt i hi)
    obtain ⟨bufF, hloop, hpendF⟩ := packEncodeLoop_spec g hg hgle alpha hlen bs'
      ((buffer * 2 ^ 8 + b) % U32) ((bl + 8) % g) hbs'
      (Nat.mod_lt _ (by omega))
    have hpend1 : ((buffer * 2 ^ 8 + b) % U32) % 2 ^ ((bl + 8) % g) =
        ((buffer % 2 ^ bl) * 2 ^ 8 + b) % 2 ^ ((bl + 8) % g) := by
      rw [← mod_pow_mod ((buffer * 2 ^ 8 + b) % U32) (bl + 8) ((bl + 8) % g)
        (Nat.mod_le _ _), hb1mod]
    have hval : ((buffer % 2 ^ bl) * 2 ^ 8 + b) * 2 ^ (8 * bs'.length) + byteVal bs' =
        (buffer % 2 ^ bl) * 2 ^ (8 * (b :: bs').length) + byteVal (b :: bs') := by
      rw [byteVal_cons, List.length_cons,
        show (2 : Nat) ^ (8 * (bs'.length + 1)) = 2 ^ 8 * 2 ^ (8 * bs'.length) by
          rw [← pow_add]
          congr 1
          ring]
      ring
    have ht : bl + 8 + 8 * bs'.length = bl + 8 * (b :: bs').length := by
      rw [List.length_cons]
      ring
    have hsnd : ((bl + 8) % g + 8 * bs'.length) % g = (bl + 8 * (b :: bs').length) % g := by
      rw [Nat.mod_add_mod, ht]
    have hsplit := topGroups_split g hg (bl + 8) ((buffer % 2 ^ bl) * 2 ^ 8 + b)
      (8 * bs'.length) (byteVal bs') hpend8lt hVbs'
    have hlist : (topGroups g (bl + 8) ((buffer % 2 ^ bl) * 2 ^ 8 + b)).map
          (fun i => alpha.getD i ' ') ++
        (topGroups g ((bl + 8) % g + 8 * bs'.length)
          ((((buffer * 2 ^ 8 + b) % U32) % 2 ^ ((bl + 8) % g)) * 2 ^ (8 * bs'.length) +
            byteVal bs')).map (fun i => alpha.getD i ' ') =
        (topGroups g (bl + 8 * (b :: bs').length)
          ((buffer % 2 ^ bl) * 2 ^ (8 * (b :: bs').length) + byteVal (b :: bs'))).map
          (fun i => alpha.getD i ' ') := by
      rw [← List.map_append]
      congr 1
      rw [hpend1, ← hsplit, ht, hval]
    have hpendstep : ((((buffer * 2 ^ 8 + b) % U32) % 2 ^ ((bl + 8) % g)) *
          2 ^ (8 * bs'.length) + byteVal bs') % 2 ^ (((bl + 8) % g + 8 * bs'.length) % g) =
        ((buffer % 2 ^ bl) * 2 ^ (8 * (b :: bs').length) + byteVal (b :: bs')) %
          2 ^ ((bl + 8 * (b :: bs').length) % g) := by
      rw [hpend1, ← hval, hsnd]
      conv_rhs => rw [← mod_pow_mod (((buffer % 2 ^ bl) * 2 ^ 8 + b) *
        2 ^ (8 * bs'.length) + byteVal bs') ((bl + 8) % g + 8 * bs'.length)
        ((bl + 8 * (b :: bs').length) % g)
        (by rw [← hsnd]; exact Nat.mod_le _ _)]
      rw [shifted_add_mod _ _ _ _ hVbs']
    refine ⟨bufF, ?_, ?_⟩
    · show (match mapAlphabet alpha (emitGroups g ((buffer <<< 8) % U32 ||| (b % 256))
          (bl + 8)).1 with
        | Except.error e => Except.error e
        | Except.ok cs =>
          match packEncodeLoop g alpha bs' ((buffer <<< 8) % U32 ||| (b % 256))
              (emitGroups g ((buffer <<< 8) % U32 ||| (b % 256)) (bl + 8)).2 with
          | Except.error e => Except.error e
          | Except.ok (cs', buf'', bl'') => Except.ok (cs ++ cs', buf'', bl'')) = _
      rw [hor, hemit]
      show (match mapAlphabet alpha (topGroups g (bl + 8)
            ((buffer % 2 ^ bl) * 2 ^ 8 + b)) with
        | Except.error e => Except.error e
        | Except.ok cs =>
          match packEncodeLoop g alpha bs' ((buffer * 2 ^ 8 + b) % U32)
              ((bl + 8) % g) with
          | Except.error e => Except.error e
          | Except.ok (cs', buf'', bl'') => Except.ok (cs ++ cs', buf'', bl'')) = _
      rw [hmap, hloop]
      show Except.ok (_ ++ _, bufF, ((bl + 8) % g + 8 * bs'.length) % g) = _
      rw [hsnd]
      exact congrArg Except.ok (congrArg (·, bufF, (bl + 8 * (b :: bs').length) % g) hlist)
    · rw [← hpendstep, ← hsnd]
      exact hpendF

/-- `packEncode` succeeds and produces the characters of `packIdx`, padded. -/
theorem packEncode_eq (g blk : Nat) (hg : 0 < g) (hgle : g + 8 ≤ 32)
    (alpha : List Char) (hlen : alpha.length = 2 ^ g)
    (bs : List Nat) (hb : ∀ b ∈ bs, b < 256) :
    packEncode g blk alpha bs =
      Except.ok (padChars blk ((packIdx g bs).map (fun i => alpha.getD i ' '))) := by
  obtain ⟨bufF, hloop, hpend⟩ := packEncodeLoop_spec g hg hgle alpha hlen bs 0 0 hb hg
  simp only [Nat.zero_add, Nat.zero_mod, Nat.zero_mul, Nat.add_zero] at hloop hpend
  unfold packEncode
  rw [hloop]
  show (if 0 < 8 * bs.length % g then _ else _) = _
  by_cases hz : 8 * bs.length % g = 0
  · rw [if_neg (by omega)]
    unfold packIdx
    rw [if_pos hz, List.append_nil]
  · rw [if_pos (by omega)]
    have hfi : ((bufF <<< (g - 8 * bs.length % g)) % U32) &&& (2 ^ g - 1) =
        (byteVal bs % 2 ^ (8 * bs.length % g)) * 2 ^ (g - 8 * bs.length % g) := by
      rw [final_index_eq g bufF (8 * bs.length % g)
        (Nat.le_of_lt (Nat.mod_lt _ hg)) (by omega)]
      rw [hpend]
    rw [hfi]
    have hilt : (byteVal bs % 2 ^ (8 * bs.length % g)) * 2 ^ (g - 8 * bs.length % g) <
        2 ^ g := by
      have h1 : byteVal bs % 2 ^ (8 * bs.length % g) < 2 ^ (8 * bs.length % g) :=
        Nat.mod_lt _ (two_pow_pos' _)
      calc (byteVal bs % 2 ^ (8 * bs.length % g)) * 2 ^ (g - 8 * bs.length % g)
          < 2 ^ (8 * bs.length % g) * 2 ^ (g - 8 * bs.length % g) := by
            exact (Nat.mul_lt_mul_right (two_pow_pos' _)).mpr h1
        _ = 2 ^ g := by
          rw [← pow_add]
          congr 1
          have := Nat.mod_lt (8 * bs.length) hg
          omega
    rw [list_get?_eq_getD alpha _ (by rw [hlen]; exact hilt)]
    show Except.ok (padChars blk _) = _
    unfold packIdx
    rw [if_neg hz, List.map_append, List.map_cons, List.map_nil]

/-- Decoder loop: consuming in-alphabet characters followed by padding (or
nothing) produces the complete bytes of the accumulated bit string. -/
theorem packDecodeLoop_spec (g : Nat) (hg : 0 < g) (hg8 : g < 8)
    (alpha : List Char) (emsg : String) (hlen : alpha.length = 2 ^ g)
    (hfind : ∀ i < 2 ^ g, strFind (alpha.getD i ' ') alpha = some i)
    (hne : '=' ∉ alpha) :
    ∀ (idxs : List Nat) (tail : List Char) (buffer bl : Nat),
    (∀ i ∈ idxs, i < 2 ^ g) → bl < 8 →
    (tail = [] ∨ tail.head? = some '=') →
    packDecodeLoop g alpha emsg (idxs.map (fun i => alpha.getD i ' ') ++ tail)
        buffer bl =
      Except.ok (topGroups 8 (bl + g * idxs.length)
        ((buffer % 2 ^ bl) * 2 ^ (g * idxs.length) + groupVal g idxs))
  | [], tail, buffer, bl, _, hbl, htail => by
    have hgoal : topGroups 8 (bl + g * ([] : List Nat).length)
        ((buffer % 2 ^ bl) * 2 ^ (g * ([] : List Nat).length) + groupVal g []) = [] := by
      simp only [List.length_nil, Nat.mul_zero, Nat.add_zero]
      exact topGroups_neg 8 bl _ (by omega)
    rcases htail with h | h
    · subst h
      rw [List.map_nil, List.nil_append]
      show Except.ok [] = _
      rw [hgoal]
    · cases tail with
      | nil => simp at h
      | cons c rest =>
        simp only [List.head?_cons, Option.some.injEq] at h
        subst h
        rw [List.map_nil, List.nil_append]
        show Except.ok [] = _
        rw [hgoal]
  | i :: is, tail, buffer, bl, hidx, hbl, htail => by
    have hi : i < 2 ^ g := hidx i (by simp)
    have his : ∀ x ∈ is, x < 2 ^ g := fun x hx => hidx x (by simp [hx])
    have hcmem : alpha.getD i ' ' ∈ alpha := by
      have := list_get?_eq_getD alpha i (by rw [hlen]; exact hi)
      exact List.get?_mem this
    have hcne : ¬(alpha.getD i ' ' = '=') := fun hc => hne (hc ▸ hcmem)
    have hor : ((buffer <<< g) % U32) ||| i = (buffer * 2 ^ g + i) % U32 := by
      rw [show U32 = 2 ^ ((32 - g) + g) by rw [show 32 - g + g = 32 by omega]; rfl]
      exact shl_mod_or_eq buffer i g (32 - g) hi
    have hb1mod : ((buffer * 2 ^ g + i) % U32) % 2 ^ (bl + g) =
        (buffer % 2 ^ bl) * 2 ^ g + i := by
      rw [show U32 = 2 ^ 32 from rfl, mod_pow_mod _ 32 (bl + g) (by omega)]
      exact shifted_add_mod buffer i g bl hi
    have hv1lt : (buffer % 2 ^ bl) * 2 ^ g + i < 2 ^ (bl + g) := by
      rw [pow_add]
      exact mul_add_lt_pow _ _ _ _ (Nat.mod_lt _ (two_pow_pos' _)) hi
    have hgv : groupVal g (i :: is) = i * 2 ^ (g * is.length) + groupVal g is := by
      rw [groupVal_cons, ← pow_mul]
      ring
    have hgvlt : groupVal g is < 2 ^ (g * is.length) := by
      unfold groupVal
      calc Nat.ofDigits (2 ^ g) is.reverse < (2 ^ g) ^ is.reverse.length := by
            apply Nat.ofDigits_lt_base_pow_length
            · have h1 : 2 ≤ 2 ^ g := by
                calc 2 = 2 ^ 1 := (pow_one 2).symm
                  _ ≤ 2 ^ g := Nat.pow_le_pow_right (by omega) hg
              omega
            · intro x hx
              exact his x (by simpa using hx)
        _ = 2 ^ (g * is.length) := by
          rw [List.length_reverse, ← pow_mul]
    have hrec := packDecodeLoop_spec g hg hg8 alpha emsg hlen hfind hne is tail
      ((buffer * 2 ^ g + i) % U32)
    have hsplit := topGroups_split 8 (by omega) (bl + g)
      ((buffer % 2 ^ bl) * 2 ^ g + i) (g * is.length) (groupVal g is) hv1lt hgvlt
    have hval : ((buffer % 2 ^ bl) * 2 ^ g + i) * 2 ^ (g * is.length) + groupVal g is =
        (buffer % 2 ^ bl) * 2 ^ (g * (i :: is).length) + groupVal g (i :: is) := by
      rw [hgv, List.length_cons,
        show (2 : Nat) ^ (g * (is.length + 1)) = 2 ^ g * 2 ^ (g * is.length) by
          rw [← pow_add]
          congr 1
          ring]
      ring
    have ht : bl + g + g * is.length = bl + g * (i :: is).length := by
      rw [List.length_cons]
      ring
    show (if alpha.getD i ' ' = '=' then Except.ok [] else
      match strFind (alpha.getD i ' ') alpha with
      | none => Except.error emsg
      | some j =>
        if 8 ≤ bl + g then
          (packDecodeLoop g alpha emsg (is.map (fun i => alpha.getD i ' ') ++ tail)
            (((buffer <<< g) % U32) ||| j) (bl + g - 8)).map
            ((((((buffer <<< g) % U32) ||| j) >>> (bl + g - 8)) % 256) :: ·)
        else
          packDecodeLoop g alpha emsg (is.map (fun i => alpha.getD i ' ') ++ tail)
            (((buffer <<< g) % U32) ||| j) (bl + g)) = _
    rw [if_neg hcne, hfind i hi]
    show (if 8 ≤ bl + g then
        (packDecodeLoop g alpha emsg (is.map (fun i => alpha.getD i ' ') ++ tail)
          (((buffer <<< g) % U32) ||| i) (bl + g - 8)).map
          ((((((buffer <<< g) % U32) ||| i) >>> (bl + g - 8)) % 256) :: ·)
      else
        packDecodeLoop g alpha emsg (is.map (fun i => alpha.getD i ' ') ++ tail)
          (((buffer <<< g) % U32) ||| i) (bl + g)) = _
    rw [hor]
    by_cases hcase : 8 ≤ bl + g
    · rw [if_pos hcase]
      have hpend1 : ((buffer * 2 ^ g + i) % U32) % 2 ^ (bl + g - 8) =
          (((buffer % 2 ^ bl) * 2 ^ g + i)) % 2 ^ (bl + g - 8) := by
        rw [← mod_pow_mod ((buffer * 2 ^ g + i) % U32) (bl + g) (bl + g - 8)
          (by omega), hb1mod]
      have hbyte : ((((buffer * 2 ^ g + i) % U32)) >>> (bl + g - 8)) % 256 =
          ((buffer % 2 ^ bl) * 2 ^ g + i) >>> (bl + g - 8) := by
        rw [Nat.shiftRight_eq_div_pow, Nat.shiftRight_eq_div_pow,
          show (256 : Nat) = 2 ^ 8 from rfl, ← Nat.mod_mul_right_div_self,
          ← pow_add, show bl + g - 8 + 8 = bl + g by omega, hb1mod]
      rw [hrec (bl + g - 8) his (by omega) htail, hbyte, hpend1]
      show Except.ok (_ :: _) = _
      rw [← ht, ← hval, hsplit]
      rw [show (bl + g) % 8 = bl + g - 8 by omega]
      rw [topGroups_pos 8 (bl + g) _ (by omega) hcase,
        topGroups_neg 8 (bl + g - 8) _ (by omega)]
      rw [List.singleton_append]
    · rw [if_neg hcase]
      have hpend1 : ((buffer * 2 ^ g + i) % U32) % 2 ^ (bl + g) =
          (buffer % 2 ^ bl) * 2 ^ g + i := hb1mod
      rw [hrec (bl + g) his (by omega) htail, hpend1]
      rw [← ht, ← hval]

theorem groupVal_append_singleton (g : Nat) (A : List Nat) (x : Nat) :
    groupVal g (A ++ [x]) = x + 2 ^ g * groupVal g A := by
  unfold groupVal
  rw [List.reverse_append, List.reverse_singleton, List.singleton_append,
    Nat.ofDigits_cons]

/-- Every index emitted by the encoder fits in `g` bits. -/
theorem packIdx_lt (g : Nat) (hg : 0 < g) (bs : List Nat) (hb : ∀ b ∈ bs, b < 256) :
    ∀ i ∈ packIdx g bs, i < 2 ^ g := by
  intro i hi
  have hVlt : byteVal bs < 2 ^ (8 * bs.length) := byteVal_lt_two_pow bs hb
  unfold packIdx at hi
  rcases List.mem_append.1 hi with h | h
  · exact topGroups_lt g _ _ hVlt i h
  · by_cases hz : 8 * bs.length % g = 0
    · rw [if_pos hz] at h
      simp at h
    · rw [if_neg hz] at h
      simp only [List.mem_singleton] at h
      subst h
      have h1 : byteVal bs % 2 ^ (8 * bs.length % g) < 2 ^ (8 * bs.length % g) :=
        Nat.mod_lt _ (two_pow_pos' _)
      calc (byteVal bs % 2 ^ (8 * bs.length % g)) * 2 ^ (g - 8 * bs.length % g)
          < 2 ^ (8 * bs.length % g) * 2 ^ (g - 8 * bs.length % g) := by
            exact (Nat.mul_lt_mul_right (two_pow_pos' _)).mpr h1
        _ = 2 ^ g := by
          rw [← pow_add]
          congr 1
          have := Nat.mod_lt (8 * bs.length) hg
          omega

/-- Decoding the emitted groups as 8-bit groups restores the bytes. -/
theorem topGroups8_packIdx (g : Nat) (hg : 0 < g) (hg8 : g < 8)
    (bs : List Nat) (hb : ∀ b ∈ bs, b < 256) :
    topGroups 8 (g * (packIdx g bs).length) (groupVal g (packIdx g bs)) = bs := by
  have hVlt : byteVal bs < 2 ^ (8 * bs.length) := byteVal_lt_two_pow bs hb
  have hglen := topGroups_length g hg (8 * bs.length) (byteVal bs)
  have hgval := topGroups_val g hg (8 * bs.length) (byteVal bs) hVlt
  have hdm := Nat.div_add_mod (8 * bs.length) g
  by_cases hz : 8 * bs.length % g = 0
  · unfold packIdx
    rw [if_pos hz, List.append_nil, hglen]
    rw [show g * (8 * bs.length / g) = 8 * bs.length by omega]
    rw [hgval, hz, pow_zero, Nat.div_one]
    exact topGroups8_bytes bs hb
  · unfold packIdx
    rw [if_neg hz]
    rw [List.length_append, hglen, List.length_singleton]
    rw [groupVal_append_singleton, hgval]
    have hslt : 8 * bs.length % g < g := Nat.mod_lt _ hg
    have htt : g * (8 * bs.length / g + 1) =
        8 * bs.length + (g - 8 * bs.length % g) := by
      rw [Nat.mul_succ]
      omega
    have hW : byteVal bs % 2 ^ (8 * bs.length % g) * 2 ^ (g - 8 * bs.length % g) +
        2 ^ g * (byteVal bs / 2 ^ (8 * bs.length % g)) =
        byteVal bs * 2 ^ (g - 8 * bs.length % g) + 0 := by
      conv_rhs => rw [← Nat.div_add_mod (byteVal bs) (2 ^ (8 * bs.length % g))]
      rw [show (2 : Nat) ^ g =
        2 ^ (8 * bs.length % g) * 2 ^ (g - 8 * bs.length % g) by
          rw [← pow_add]
          congr 1
          omega]
      ring
    rw [htt, hW]
    have hsplit := topGroups_split 8 (by omega) (8 * bs.length) (byteVal bs)
      (g - 8 * bs.length % g) 0 hVlt (two_pow_pos' _)
    rw [hsplit, Nat.mul_mod_right,
      topGroups_neg 8 (0 + (g - 8 * bs.length % g)) _ (by omega), List.append_nil]
    exact topGroups8_bytes bs hb

/-- Padding characters are empty or start with `=`. -/
theorem replicate_eq_tail (p : Nat) :
    (List.replicate p '=' = []) ∨ (List.replicate p '=').head? = some '=' := by
  cases p with
  | zero => exact Or.inl rfl
  | succ n => exact Or.inr rfl

/-- The padded encoder output length is a multiple of the block size. -/
theorem padChars_length_mod (blk : Nat) (hblk : 0 < blk) (s : List Char) :
    (padChars blk s).length % blk = 0 := by
  unfold padChars
  rw [List.length_append, List.length_replicate]
  by_cases hz : s.length % blk = 0
  · rw [hz, Nat.sub_zero, Nat.mod_self, Nat.add_zero, hz]
  · have h1 : s.length % blk < blk := Nat.mod_lt _ hblk
    rw [Nat.mod_eq_of_lt (show blk - s.length % blk < blk by omega)]
    have h2 := Nat.div_add_mod s.length blk
    rw [show s.length + (blk - s.length % blk) = blk * (s.length / blk) + blk by omega,
      Nat.mul_add_mod, Nat.mod_self]

theorem strFind_eq_none (c : Char) : ∀ (l : List Char), c ∉ l → strFind c l = none
  | [], _ => rfl
  | a :: rest, h => by
    rw [strFind, if_neg (by
      intro hac
      exact h (hac ▸ List.mem_cons_self a rest)),
      strFind_eq_none c rest (fun hm => h (List.mem_cons_of_mem a hm))]
    rfl

/-- A character outside the alphabet occurring before the first `=` makes the
bit-packing decoder fail. -/
theorem packDecodeLoop_err (g : Nat) (alpha : List Char) (emsg : String) :
    ∀ (s : List Char) (buffer bl : Nat) (c : Char),
    c ∈ s.takeWhile (· ≠ '=') → strFind c alpha = none →
    packDecodeLoop g alpha emsg s buffer bl = Except.error emsg
  | [], buffer, bl, c, hc, _ => by simp at hc
  | c0 :: rest, buffer, bl, c, hc, hfind => by
    by_cases h0 : c0 = '='
    · subst h0
      rw [List.takeWhile_cons_of_neg (by simp)] at hc
      simp at hc
    · rw [List.takeWhile_cons_of_pos (by simpa using h0)] at hc
      rcases List.mem_cons.1 hc with hceq | hcmem
      · subst hceq
        show (if c = '=' then _ else _) = _
        rw [if_neg h0, hfind]
      · show (if c0 = '=' then _ else _) = _
        rw [if_neg h0]
        cases hf0 : strFind c0 alpha with
        | none => rfl
        | some i =>
          show (if 8 ≤ bl + g then _ else _) = _
          have hrec8 := packDecodeLoop_err g alpha emsg rest
            (((buffer <<< g) % U32) ||| i) (bl + g - 8) c hcmem hfind
          have hrec := packDecodeLoop_err g alpha emsg rest
            (((buffer <<< g) % U32) ||| i) (bl + g) c hcmem hfind
          by_cases hcase : 8 ≤ bl + g
          · rw [if_pos hcase, hrec8]
            rfl
          · rw [if_neg hcase, hrec]

/-- A character outside the alphabet makes the big-integer digit
accumulation fail. -/
theorem bigDecodeNum_err (radix : Nat) (alpha : List Char) (emsg : String) :
    ∀ (s : List Char) (acc : Nat) (c : Char), c ∈ s → strFind c alpha = none →
    bigDecodeNum radix alpha emsg s acc = Except.error emsg
  | [], _, c, hc, _ => by simp at hc
  | c0 :: rest, acc, c, hc, hfind => by
    rcases List.mem_cons.1 hc with hceq | hcmem
    · subst hceq
      rw [bigDecodeNum, hfind]
    · rw [bigDecodeNum]
      cases hf0 : strFind c0 alpha with
      | none => rfl
      | some i => exact bigDecodeNum_err radix alpha emsg rest _ c hcmem hfind

/-- A character outside the alphabet makes the Base91 decoder fail. -/
theorem base91DecodeLoop_err :
    ∀ (s : List Char) (b n : Nat) (v : Option Nat) (c : Char),
    c ∈ s → strFind c BASE91_ALPHABET = none →
    Base91.decodeLoop s b n v = Except.error "invalid base91 character"
  | [], _, _, _, c, hc, _ => by simp at hc
  | c0 :: rest, b, n, v, c, hc, hfind => by
    rcases List.mem_cons.1 hc with hceq | hcmem
    · subst hceq
      rw [Base91.decodeLoop, hfind]
    · rw [Base91.decodeLoop]
      cases hf0 : strFind c0 BASE91_ALPHABET with
      | none => rfl
      | some d =>
        cases v with
        | none => exact base91DecodeLoop_err rest b n (some d) c hcmem hfind
        | some v0 =>
          dsimp only
          rw [base91DecodeLoop_err rest _ _ none c hcmem hfind]
          rfl

/-- Full bit-packing roundtrip: decoding the padded encoder output restores
the input bytes. -/
theorem packRoundtrip (g blk : Nat) (hg : 0 < g) (hg8 : g < 8)
    (alpha : List Char) (emsg : String) (hlen : alpha.length = 2 ^ g)
    (hfind : ∀ i < 2 ^ g, strFind (alpha.getD i ' ') alpha = some i)
    (hne : '=' ∉ alpha) (bs : List Nat) (hb : ∀ b ∈ bs, b < 256) :
    packDecodeLoop g alpha emsg
      (padChars blk ((packIdx g bs).map (fun i => alpha.getD i ' '))) 0 0 =
      Except.ok bs := by
  unfold padChars
  rw [packDecodeLoop_spec g hg hg8 alpha emsg hlen hfind hne (packIdx g bs) _ 0 0
    (packIdx_lt g hg bs hb) (by omega) (replicate_eq_tail _)]
  simp only [Nat.zero_add, pow_zero, Nat.zero_mod, Nat.zero_mul, Nat.mod_one]
  exact congrArg Except.ok (topGroups8_packIdx g hg hg8 bs hb)

theorem base32_length : BASE32_ALPHABET.length = 2 ^ 5 := by decide

theorem base64_length : BASE64_ALPHABET.length = 2 ^ 6 := by decide

theorem base32_find_getD : ∀ i < 2 ^ 5,
    strFind (BASE32_ALPHABET.getD i ' ') BASE32_ALPHABET = some i := by decide

theorem base64_find_getD : ∀ i < 2 ^ 6,
    strFind (BASE64_ALPHABET.getD i ' ') BASE64_ALPHABET = some i := by decide

theorem base32_no_pad : '=' ∉ BASE32_ALPHABET := by decide

theorem base64_no_pad : '=' ∉ BASE64_ALPHABET := by decide

/-- `Base32::encode` always succeeds, with the `packIdx` characters padded
to a multiple of 8. -/
theorem base32_encode_eq (bs : List Nat) (hb : ∀ b ∈ bs, b < 256) :
    Base32.encode bs =
      Except.ok (padChars 8 ((packIdx 5 bs).map (fun i => BASE32_ALPHABET.getD i ' '))) :=
  packEncode_eq 5 8 (by omega) (by omega) BASE32_ALPHABET base32_length bs hb

/-- `Base64::encode` always succeeds, with the `packIdx` characters padded
to a multiple of 4. -/
theorem base64_encode_eq (bs : List Nat) (hb : ∀ b ∈ bs, b < 256) :
    Base64.encode bs =
      Except.ok (padChars 4 ((packIdx 6 bs).map (fun i => BASE64_ALPHABET.getD i ' '))) :=
  packEncode_eq 6 4 (by omega) (by omega) BASE64_ALPHABET base64_length bs hb

theorem base32_roundtrip (bs : List Nat) (hb : ∀ b ∈ bs, b < 256) :
    ∃ s, Base32.encode bs = Except.ok s ∧ Base32.decode s = Except.ok bs :=
  ⟨_, base32_encode_eq bs hb,
    packRoundtrip 5 8 (by omega) (by omega) BASE32_ALPHABET _ base32_length
      base32_find_getD base32_no_pad bs hb⟩

theorem base64_roundtrip (bs : List Nat) (hb : ∀ b ∈ bs, b < 256) :
    ∃ s, Base64.encode bs = Except.ok s ∧ Base64.decode s = Except.ok bs :=
  ⟨_, base64_encode_eq bs hb,
    packRoundtrip 6 4 (by omega) (by omega) BASE64_ALPHABET _ base64_length
      base64_find_getD base64_no_pad bs hb⟩

/-! ### Base91 machinery -/

theorem base91_length : BASE91_ALPHABET.length = 91 := by decide

theorem base91_find_getD : ∀ i < 91,
    strFind (BASE91_ALPHABET.getD i ' ') BASE91_ALPHABET = some i := by decide

theorem leVal_cons (b : Nat) (tl : List Nat) : leVal (b :: tl) = b + leVal tl * 256 := rfl

theorem leVal_lt (bs : List Nat) (h : ∀ b ∈ bs, b < 256) :
    leVal bs < 2 ^ (8 * bs.length) := by
  induction bs with
  | nil => simp [leVal]
  | cons b tl ih =>
    have hb : b < 256 := h b (by simp)
    have htl := ih fun x hx => h x (by simp [hx])
    rw [leVal_cons, List.length_cons,
      show 8 * (tl.length + 1) = 8 * tl.length + 8 by ring, pow_add]
    have h1 : leVal tl * 256 ≤ (2 ^ (8 * tl.length) - 1) * 256 := by
      have := two_pow_pos' (8 * tl.length)
      exact Nat.mul_le_mul_right _ (by omega)
    have := two_pow_pos' (8 * tl.length)
    calc b + leVal tl * 256 ≤ 255 + (2 ^ (8 * tl.length) - 1) * 256 := by omega
      _ < 2 ^ (8 * tl.length) * 2 ^ 8 := by
        have h2 : (2 ^ (8 * tl.length) - 1) * 256 = 2 ^ (8 * tl.length) * 256 - 256 :=
          Nat.sub_mul _ _ _
        have h3 : 256 ≤ 2 ^ (8 * tl.length) * 256 :=
          Nat.le_mul_of_pos_left _ (two_pow_pos' _)
        omega

theorem leDigits_leVal (bs : List Nat) (h : ∀ b ∈ bs, b < 256) :
    leDigits bs.length (leVal bs) = bs := by
  induction bs with
  | nil => rfl
  | cons b tl ih =>
    have hb : b < 256 := h b (by simp)
    rw [List.length_cons, leDigits, leVal_cons]
    rw [show (b + leVal tl * 256) % 256 = b by
      rw [Nat.add_mul_mod_self_right, Nat.mod_eq_of_lt hb]]
    rw [show (b + leVal tl * 256) / 256 = leVal tl by
      rw [Nat.add_mul_div_right _ _ (by norm_num : (0 : Nat) < 256),
        Nat.div_eq_of_lt hb, Nat.zero_add]]
    rw [ih fun x hx => h x (by simp [hx])]

/-- `leDigits` only depends on the low `8w` bits. -/
theorem leDigits_mod : ∀ (w v : Nat), leDigits w (v % 2 ^ (8 * w)) = leDigits w v
  | 0, _ => rfl
  | w + 1, v => by
    have h8 : (2 : Nat) ^ (8 * (w + 1)) = 256 * 2 ^ (8 * w) := by
      rw [show 8 * (w + 1) = 8 + 8 * w by ring, pow_add]
      norm_num
    rw [leDigits, leDigits, h8,
      Nat.mod_mod_of_dvd v (dvd_mul_right 256 (2 ^ (8 * w))),
      Nat.mod_mul_right_div_self, leDigits_mod w (v / 256)]

/-- Splitting a little-endian digit string. -/
theorem leDigits_split : ∀ (w1 w2 v : Nat),
    leDigits (w1 + w2) v = leDigits w1 v ++ leDigits w2 (v / 2 ^ (8 * w1))
  | 0, w2, v => by
    simp [leDigits]
  | w1 + 1, w2, v => by
    rw [show w1 + 1 + w2 = (w1 + w2) + 1 by ring, leDigits, leDigits,
      leDigits_split w1 w2 (v / 256), List.cons_append,
      Nat.div_div_eq_div_mul,
      show 256 * 2 ^ (8 * w1) = 2 ^ (8 * (w1 + 1)) by
        rw [show 8 * (w1 + 1) = 8 + 8 * w1 by ring, pow_add]
        norm_num]

theorem extract_low (b r : Nat) (h : r ≤ 7) : Base91.extract b r = ([], b, r) := by
  interval_cases r <;> rfl

theorem extract_high (b n : Nat) : Base91.extract b (n + 8) =
    ((b &&& 255) :: (Base91.extract (b >>> 8) n).1, (Base91.extract (b >>> 8) n).2) := rfl

/-- The `while n > 7` loop extracts exactly `n / 8` little-endian bytes. -/
theorem extract_eq91 : ∀ (q b r : Nat), r ≤ 7 →
    Base91.extract b (8 * q + r) = (leDigits q b, b >>> (8 * q), r)
  | 0, b, r, h => by
    simpa [leDigits] using extract_low b r h
  | q + 1, b, r, h => by
    rw [show 8 * (q + 1) + r = (8 * q + r) + 8 by ring, extract_high,
      extract_eq91 q (b >>> 8) r h, leDigits]
    have h1 : b &&& 255 = b % 256 := by
      rw [show (255 : Nat) = 2 ^ 8 - 1 by norm_num, Nat.and_pow_two_sub_one_eq_mod]
    have h2 : b >>> 8 = b / 256 := by
      rw [Nat.shiftRight_eq_div_pow]
    have h3 : (b >>> 8) >>> (8 * q) = b >>> (8 * (q + 1)) := by
      rw [← Nat.shiftRight_add]
      congr 1
      ring
    dsimp only
    rw [h1, h3, h2]

theorem mul_pow_lt_U32 (y k n : Nat) (hy : y < 2 ^ k) (hkn : k + n ≤ 32) :
    y * 2 ^ n < U32 := by
  show y * 2 ^ n < 2 ^ 32
  calc y * 2 ^ n < 2 ^ k * 2 ^ n := (Nat.mul_lt_mul_right (two_pow_pos' n)).mpr hy
    _ = 2 ^ (k + n) := (pow_add 2 k n).symm
    _ ≤ 2 ^ 32 := Nat.pow_le_pow_right (by norm_num) hkn

/-- The `b |= (x << n) % U32` accumulation is plain addition when the existing
buffer fits below the shift and the shifted value fits in the word. -/
theorem orShiftSmall (x y n : Nat) (hx : x < 2 ^ n) (hfit : y * 2 ^ n < U32) :
    x ||| ((y <<< n) % U32) = x + y * 2 ^ n := by
  have hfit' : y * 2 ^ n < 2 ^ 32 := hfit
  rw [Nat.shiftLeft_eq, show U32 = 2 ^ 32 from rfl, Nat.mod_eq_of_lt hfit',
    Nat.mul_comm y, Nat.lor_comm, ← Nat.mul_add_lt_is_or hx y]
  ring

/-- Both alphabet lookups of `encodeTwo` succeed when the quotient digit is in
range. -/
theorem encodeTwo_eq (v : Nat) (hv : v / 91 ≤ 90) :
    Base91.encodeTwo v = Except.ok
      [BASE91_ALPHABET.getD (v % 91) ' ', BASE91_ALPHABET.getD (v / 91) ' '] := by
  have h1 : BASE91_ALPHABET.get? (v % 91) = some (BASE91_ALPHABET.getD (v % 91) ' ') :=
    list_get?_eq_getD _ _ (by rw [base91_length]; exact Nat.mod_lt _ (by norm_num))
  have h2 : BASE91_ALPHABET.get? (v / 91) = some (BASE91_ALPHABET.getD (v / 91) ' ') :=
    list_get?_eq_getD _ _ (by rw [base91_length]; omega)
  simp only [Base91.encodeTwo, h1, h2]

/-- One decoder pair step: reading the two base-91 digits of a chunk value `v`
adds `v` to the bit buffer, emits the completed low bytes, and keeps the
remainder. -/
theorem dec91_pair (v : Nat) (hv : v ≤ 8280) (rest : List Char) (bD nD : Nat) :
    Base91.decodeLoop (BASE91_ALPHABET.getD (v % 91) ' ' ::
        BASE91_ALPHABET.getD (v / 91) ' ' :: rest) bD nD none =
      (Base91.decodeLoop rest
          ((bD ||| ((v <<< nD) % U32)) >>> (8 * ((nD + w91 v) / 8)))
          ((nD + w91 v) % 8) none).map
        (leDigits ((nD + w91 v) / 8) (bD ||| ((v <<< nD) % U32)) ++ ·) := by
  have h1 := base91_find_getD (v % 91) (Nat.mod_lt _ (by norm_num))
  have h2 := base91_find_getD (v / 91) (by omega)
  have hext := extract_eq91 ((nD + w91 v) / 8) (bD ||| ((v <<< nD) % U32))
    ((nD + w91 v) % 8) (by omega)
  rw [Nat.div_add_mod (nD + w91 v) 8] at hext
  simp only [Base91.decodeLoop, h1, h2]
  rw [Nat.mod_add_div' v 91]
  rw [show (nD + if 88 < (v &&& 8191) then 13 else 14) = nD + w91 v from rfl, hext]

/-- The numeric heart of the Base91 round trip: cutting the low `w` bits of
the encoder buffer and pushing them through a decoder buffer of `nD` pending
bits splits the little-endian digit string of the total value. -/
theorem chunk_glue (w n1 nD bD b1 R k : Nat) (hwn1 : w ≤ n1) :
    leDigits ((nD + n1 + 8 * k) / 8) (bD + (b1 + R * 2 ^ n1) * 2 ^ nD) =
      leDigits ((nD + w) / 8) (bD + b1 % 2 ^ w * 2 ^ nD) ++
        leDigits (((nD + w) % 8 + (n1 - w) + 8 * k) / 8)
          ((bD + b1 % 2 ^ w * 2 ^ nD) >>> (8 * ((nD + w) / 8)) +
            (b1 >>> w + R * 2 ^ (n1 - w)) * 2 ^ ((nD + w) % 8)) := by
  have hqr : 8 * ((nD + w) / 8) + (nD + w) % 8 = nD + w := Nat.div_add_mod _ 8
  set q := (nD + w) / 8 with hq
  set r := (nD + w) % 8 with hr
  set n2 := n1 - w with hn2
  set b1D := bD + b1 % 2 ^ w * 2 ^ nD with hb1D
  set A := (2 : Nat) ^ (8 * q) with hA
  have hshift : b1D >>> (8 * q) = b1D / A := Nat.shiftRight_eq_div_pow _ _
  have hb2 : b1 >>> w = b1 / 2 ^ w := Nat.shiftRight_eq_div_pow _ _
  set W2 := b1D >>> (8 * q) + (b1 >>> w + R * 2 ^ n2) * 2 ^ r with hW2
  have hp1 : (2 : Nat) ^ w * 2 ^ nD = A * 2 ^ r := by
    rw [hA, ← pow_add, ← pow_add]
    congr 1
    omega
  have hp2 : (2 : Nat) ^ n1 * 2 ^ nD = A * (2 ^ n2 * 2 ^ r) := by
    rw [hA, ← pow_add, ← pow_add, ← pow_add]
    congr 1
    omega
  have hs1 : b1 = b1 / 2 ^ w * 2 ^ w + b1 % 2 ^ w := by
    conv_lhs => rw [← Nat.div_add_mod b1 (2 ^ w)]
    ring
  have hs2 : b1D = b1D % A + A * (b1D / A) := by
    conv_lhs => rw [← Nat.div_add_mod b1D A]
    ring
  have hW : bD + (b1 + R * 2 ^ n1) * 2 ^ nD = b1D % A + A * W2 := by
    calc bD + (b1 + R * 2 ^ n1) * 2 ^ nD
        = (bD + b1 % 2 ^ w * 2 ^ nD) + b1 / 2 ^ w * (2 ^ w * 2 ^ nD)
            + R * (2 ^ n1 * 2 ^ nD) := by
          conv_lhs => rw [hs1]
          ring
      _ = b1D + A * (b1 / 2 ^ w * 2 ^ r + R * (2 ^ n2 * 2 ^ r)) := by
          rw [hp1, hp2]
          ring
      _ = b1D % A + A * (b1D / A) + A * (b1 / 2 ^ w * 2 ^ r + R * (2 ^ n2 * 2 ^ r)) := by
          conv_lhs => rw [hs2]
      _ = b1D % A + A * W2 := by
          rw [hW2, hshift, hb2]
          ring
  have hK : (nD + n1 + 8 * k) / 8 = q + (r + n2 + 8 * k) / 8 := by
    omega
  rw [hK, leDigits_split, hW]
  congr 1
  · rw [← leDigits_mod q (b1D % A + A * W2), ← leDigits_mod q b1D]
    congr 1
    rw [← hA, Nat.add_mul_mod_self_left, Nat.mod_mod_of_dvd b1D dvd_rfl]
  · congr 1
    rw [← hA, Nat.add_mul_div_left _ _ (two_pow_pos' _),
      Nat.div_eq_of_lt (Nat.mod_lt _ (two_pow_pos' _)), Nat.zero_add]

/-- The Base91 encoder/decoder loop invariant: with aligned pending-bit
counts, decoding the encoder's output appends exactly the little-endian
digits of the combined buffered value. -/
theorem enc91_dec91 : ∀ (bs : List Nat) (b n bD nD : Nat),
    (∀ x ∈ bs, x < 256) → n ≤ 13 → b < 2 ^ n → nD ≤ 7 → bD < 2 ^ nD →
    (n + nD) % 8 = 0 →
    ∃ cs, Base91.encodeLoop bs b n = Except.ok cs ∧
      Base91.decodeLoop cs bD nD none =
        Except.ok (leDigits ((nD + n + 8 * bs.length) / 8)
          (bD + (b + leVal bs * 2 ^ n) * 2 ^ nD))
  | [], b, n, bD, nD, _, hn13, hb, hnD, hbD, halign => by
    have hval : bD + (b + leVal [] * 2 ^ n) * 2 ^ nD = bD + b * 2 ^ nD := by
      show bD + (b + 0 * 2 ^ n) * 2 ^ nD = _
      ring
    have hcnt : (nD + n + 8 * List.length ([] : List Nat)) / 8 = (nD + n) / 8 := by
      simp
    rw [hcnt, hval]
    by_cases hn0 : 0 < n
    · have hpow : (2 : Nat) ^ n ≤ 2 ^ 13 := Nat.pow_le_pow_right (by norm_num) hn13
      have he13 : (2 : Nat) ^ 13 = 8192 := by norm_num
      have hb8191 : b ≤ 8191 := by omega
      have hb13 : b < 2 ^ 13 := by omega
      have horB : bD ||| ((b <<< nD) % U32) = bD + b * 2 ^ nD :=
        orShiftSmall bD b nD hbD (mul_pow_lt_U32 b 13 nD hb13 (by omega))
      have hand : b &&& 8191 = b := by
        rw [show (8191 : Nat) = 2 ^ 13 - 1 by norm_num, Nat.and_pow_two_sub_one_eq_mod,
          Nat.mod_eq_of_lt hb13]
      by_cases htwo : 7 < n ∨ 90 < b
      · have hq90 : b / 91 ≤ 90 := by omega
        have hget1 := list_get?_eq_getD BASE91_ALPHABET (b % 91)
          (by rw [base91_length]; exact Nat.mod_lt _ (by norm_num))
        have hget2 := list_get?_eq_getD BASE91_ALPHABET (b / 91)
          (by rw [base91_length]; omega)
        have henc : Base91.encodeLoop [] b n = Except.ok
            [BASE91_ALPHABET.getD (b % 91) ' ', BASE91_ALPHABET.getD (b / 91) ' '] := by
          simp only [Base91.encodeLoop, if_pos hn0, hget1, if_pos htwo, hget2]
        have hwor : w91 b = 13 ∨ w91 b = 14 := by
          rw [w91]
          by_cases h : 88 < b &&& 8191 <;> simp [h]
        have hw1 : n ≤ w91 b := by omega
        have hw2 : w91 b ≤ n + 7 := by
          rcases htwo with h8 | h90
          · omega
          · have hw13 : w91 b = 13 := by
              rw [w91, hand, if_pos (by omega)]
            have hn7 : 7 ≤ n := by
              by_contra hcon
              have h6 : (2 : Nat) ^ n ≤ 2 ^ 6 :=
                Nat.pow_le_pow_right (by norm_num) (by omega)
              have h64 : (2 : Nat) ^ 6 = 64 := by norm_num
              omega
            omega
        have hqq : (nD + w91 b) / 8 = (nD + n) / 8 := by omega
        refine ⟨_, henc, ?_⟩
        rw [dec91_pair b (by omega) [] bD nD]
        simp only [Base91.decodeLoop, Except.map, List.append_nil]
        rw [horB, hqq]
      · have htwo' := htwo
        push_neg at htwo'
        obtain ⟨hn7, hb90⟩ := htwo'
        have hbmod91 : b % 91 = b := Nat.mod_eq_of_lt (by omega)
        have hget1 := list_get?_eq_getD BASE91_ALPHABET (b % 91)
          (by rw [base91_length]; exact Nat.mod_lt _ (by norm_num))
        have henc : Base91.encodeLoop [] b n =
            Except.ok [BASE91_ALPHABET.getD b ' '] := by
          simp only [Base91.encodeLoop, if_pos hn0, hget1, if_neg htwo]
          rw [hbmod91]
        have hfind := base91_find_getD b (by omega)
        have hsum8 : nD + n = 8 := by omega
        refine ⟨_, henc, ?_⟩
        have hdec : Base91.decodeLoop [BASE91_ALPHABET.getD b ' '] bD nD none =
            Except.ok [(bD ||| ((b <<< nD) % U32)) &&& 255] := by
          simp only [Base91.decodeLoop, hfind]
        rw [hdec, horB, show (255 : Nat) = 2 ^ 8 - 1 by norm_num,
          Nat.and_pow_two_sub_one_eq_mod, hsum8]
        rfl
    · have hn : n = 0 := by omega
      subst hn
      have hb0 : b = 0 := by
        have h1 : b < 1 := by simpa using hb
        omega
      have hnD0 : nD = 0 := by omega
      subst hnD0
      have hbD0 : bD = 0 := by
        have h1 : bD < 1 := by simpa using hbD
        omega
      subst hb0
      subst hbD0
      exact ⟨[], rfl, rfl⟩
  | byte :: rest, b, n, bD, nD, hbs, hn13, hb, hnD, hbD, halign => by
    have hbyte : byte < 256 := hbs byte (by simp)
    have hrest : ∀ x ∈ rest, x < 256 := fun x hx => hbs x (by simp [hx])
    have hbmod : byte % 256 = byte := Nat.mod_eq_of_lt hbyte
    have hor : b ||| (((byte % 256) <<< n) % U32) = b + byte * 2 ^ n := by
      rw [hbmod]
      exact orShiftSmall b byte n hb (mul_pow_lt_U32 byte 8 n hbyte (by omega))
    have hb1 : b + byte * 2 ^ n < 2 ^ (n + 8) := by
      calc b + byte * 2 ^ n = byte * 2 ^ n + b := by ring
        _ < 2 ^ 8 * 2 ^ n := mul_add_lt_pow byte b 8 n hbyte hb
        _ = 2 ^ (8 + n) := (pow_add 2 8 n).symm
        _ = 2 ^ (n + 8) := by rw [Nat.add_comm]
    set b1 := b + byte * 2 ^ n with hb1def
    have hcnt : (nD + n + 8 * (byte :: rest).length) / 8
        = (nD + (n + 8) + 8 * rest.length) / 8 := by
      rw [List.length_cons]
      omega
    have hval : bD + (b + leVal (byte :: rest) * 2 ^ n) * 2 ^ nD
        = bD + (b1 + leVal rest * 2 ^ (n + 8)) * 2 ^ nD := by
      rw [leVal_cons, hb1def, pow_add, show (2 : Nat) ^ 8 = 256 by norm_num]
      ring
    by_cases h13 : 13 < n + 8
    · have hand13 : b1 &&& 8191 = b1 % 8192 := by
        rw [show (8191 : Nat) = 2 ^ 13 - 1 by norm_num, Nat.and_pow_two_sub_one_eq_mod]
      by_cases hv0 : 88 < b1 &&& 8191
      · -- 13-bit chunk
        have hv0A : 88 < b1 % 8192 := by rw [← hand13]; exact hv0
        have hv13 : b1 % 8192 < 2 ^ 13 := by
          show b1 % 8192 < 8192
          exact Nat.mod_lt _ (by norm_num)
        have hb2lt : b1 >>> 13 < 2 ^ (n + 8 - 13) := by
          rw [Nat.shiftRight_eq_div_pow, Nat.div_lt_iff_lt_mul (two_pow_pos' 13),
            ← pow_add, show n + 8 - 13 + 13 = n + 8 by omega]
          exact hb1
        have hb1Dlt : bD + b1 % 8192 * 2 ^ nD < 2 ^ (nD + 13) := by
          calc bD + b1 % 8192 * 2 ^ nD = b1 % 8192 * 2 ^ nD + bD := by ring
            _ < 2 ^ 13 * 2 ^ nD := mul_add_lt_pow _ bD 13 nD hv13 hbD
            _ = 2 ^ (13 + nD) := (pow_add 2 13 nD).symm
            _ = 2 ^ (nD + 13) := by rw [Nat.add_comm]
        have hbD'lt : (bD + b1 % 8192 * 2 ^ nD) >>> (8 * ((nD + 13) / 8))
            < 2 ^ ((nD + 13) % 8) := by
          rw [Nat.shiftRight_eq_div_pow, Nat.div_lt_iff_lt_mul (two_pow_pos' _),
            ← pow_add, show (nD + 13) % 8 + 8 * ((nD + 13) / 8) = nD + 13 by omega]
          exact hb1Dlt
        obtain ⟨cs, hc1, hc2⟩ := enc91_dec91 rest (b1 >>> 13) (n + 8 - 13)
          ((bD + b1 % 8192 * 2 ^ nD) >>> (8 * ((nD + 13) / 8))) ((nD + 13) % 8)
          hrest (by omega) hb2lt (by omega) hbD'lt (by omega)
        have he2 := encodeTwo_eq (b1 % 8192) (by omega)
        have henc : Base91.encodeLoop (byte :: rest) b n = Except.ok
            (BASE91_ALPHABET.getD (b1 % 8192 % 91) ' ' ::
              BASE91_ALPHABET.getD (b1 % 8192 / 91) ' ' :: cs) := by
          simp only [Base91.encodeLoop, hor, if_pos h13, hand13, if_pos hv0A, he2,
            hc1, Except.map, List.cons_append, List.nil_append]
        have hw91A : w91 (b1 % 8192) = 13 := by
          rw [w91, show b1 % 8192 &&& 8191 = b1 % 8192 by
            rw [show (8191 : Nat) = 2 ^ 13 - 1 by norm_num,
              Nat.and_pow_two_sub_one_eq_mod, show (2 : Nat) ^ 13 = 8192 by norm_num,
              Nat.mod_mod_of_dvd b1 dvd_rfl], if_pos hv0A]
        have horBD : bD ||| (((b1 % 8192) <<< nD) % U32) = bD + b1 % 8192 * 2 ^ nD :=
          orShiftSmall bD _ nD hbD (mul_pow_lt_U32 _ 13 nD hv13 (by omega))
        refine ⟨_, henc, ?_⟩
        rw [dec91_pair (b1 % 8192) (by omega) cs bD nD, hw91A, horBD, hc2]
        simp only [Except.map]
        have hglue := chunk_glue 13 (n + 8) nD bD b1 (leVal rest) rest.length (by omega)
        rw [show (2 : Nat) ^ 13 = 8192 by norm_num] at hglue
        rw [hcnt, hval, hglue]
      · -- 14-bit chunk
        have hv0B : ¬ 88 < b1 % 8192 := by rw [← hand13]; exact hv0
        have hand14 : b1 &&& 16383 = b1 % 16384 := by
          rw [show (16383 : Nat) = 2 ^ 14 - 1 by norm_num, Nat.and_pow_two_sub_one_eq_mod]
        have hmod1314 : b1 % 16384 % 8192 = b1 % 8192 :=
          Nat.mod_mod_of_dvd b1 (by norm_num)
        have hvle : b1 % 16384 ≤ 8280 := by omega
        have hv14 : b1 % 16384 < 2 ^ 14 := by
          show b1 % 16384 < 16384
          exact Nat.mod_lt _ (by norm_num)
        have hb2lt : b1 >>> 14 < 2 ^ (n + 8 - 14) := by
          rw [Nat.shiftRight_eq_div_pow, Nat.div_lt_iff_lt_mul (two_pow_pos' 14),
            ← pow_add, show n + 8 - 14 + 14 = n + 8 by omega]
          exact hb1
        have hb1Dlt : bD + b1 % 16384 * 2 ^ nD < 2 ^ (nD + 14) := by
          calc bD + b1 % 16384 * 2 ^ nD = b1 % 16384 * 2 ^ nD + bD := by ring
            _ < 2 ^ 14 * 2 ^ nD := mul_add_lt_pow _ bD 14 nD hv14 hbD
            _ = 2 ^ (14 + nD) := (pow_add 2 14 nD).symm
            _ = 2 ^ (nD + 14) := by rw [Nat.add_comm]
        have hbD'lt : (bD + b1 % 16384 * 2 ^ nD) >>> (8 * ((nD + 14) / 8))
            < 2 ^ ((nD + 14) % 8) := by
          rw [Nat.shiftRight_eq_div_pow, Nat.div_lt_iff_lt_mul (two_pow_pos' _),
            ← pow_add, show (nD + 14) % 8 + 8 * ((nD + 14) / 8) = nD + 14 by omega]
          exact hb1Dlt
        obtain ⟨cs, hc1, hc2⟩ := enc91_dec91 rest (b1 >>> 14) (n + 8 - 14)
          ((bD + b1 % 16384 * 2 ^ nD) >>> (8 * ((nD + 14) / 8))) ((nD + 14) % 8)
          hrest (by omega) hb2lt (by omega) hbD'lt (by omega)
        have he2 := encodeTwo_eq (b1 % 16384) (by omega)
        have henc : Base91.encodeLoop (byte :: rest) b n = Except.ok
            (BASE91_ALPHABET.getD (b1 % 16384 % 91) ' ' ::
              BASE91_ALPHABET.getD (b1 % 16384 / 91) ' ' :: cs) := by
          simp only [Base91.encodeLoop, hor, if_pos h13, hand13, if_neg hv0B, hand14,
            he2, hc1, Except.map, List.cons_append, List.nil_append]
        have hw91B : w91 (b1 % 16384) = 14 := by
          rw [w91, show b1 % 16384 &&& 8191 = b1 % 8192 by
            rw [show (8191 : Nat) = 2 ^ 13 - 1 by norm_num,
              Nat.and_pow_two_sub_one_eq_mod, show (2 : Nat) ^ 13 = 8192 by norm_num,
              hmod1314], if_neg hv0B]
        have horBD : bD ||| (((b1 % 16384) <<< nD) % U32) = bD + b1 % 16384 * 2 ^ nD :=
          orShiftSmall bD _ nD hbD (mul_pow_lt_U32 _ 14 nD hv14 (by omega))
        refine ⟨_, henc, ?_⟩
        rw [dec91_pair (b1 % 16384) hvle cs bD nD, hw91B, horBD, hc2]
        simp only [Except.map]
        have hglue := chunk_glue 14 (n + 8) nD bD b1 (leVal rest) rest.length (by omega)
        rw [show (2 : Nat) ^ 14 = 16384 by norm_num] at hglue
        rw [hcnt, hval, hglue]
    · obtain ⟨cs, hc1, hc2⟩ := enc91_dec91 rest b1 (n + 8) bD nD
        hrest (by omega) hb1 hnD hbD (by omega)
      refine ⟨cs, ?_, ?_⟩
      · simp only [Base91.encodeLoop]
        rw [if_neg h13, hor]
        exact hc1
      · rw [hc2, hcnt, hval]

/-- Decoding a Base91 encoding restores the input bytes. -/
theorem base91_roundtrip (bs : List Nat) (hb : ∀ x ∈ bs, x < 256) :
    ∃ s, Base91.encode bs = Except.ok s ∧ Base91.decode s = Except.ok bs := by
  obtain ⟨cs, hc1, hc2⟩ := enc91_dec91 bs 0 0 0 0 hb (by omega) (by norm_num)
    (by omega) (by norm_num) (by omega)
  refine ⟨cs, hc1, ?_⟩
  show Base91.decodeLoop cs 0 0 none = _
  rw [hc2, show (0 + 0 + 8 * bs.length) / 8 = bs.length by omega,
    show 0 + (0 + leVal bs * 2 ^ 0) * 2 ^ 0 = leVal bs by ring,
    leDigits_leVal bs hb]

/-- The Base91 encoder loop never fails (for arbitrary list elements: the
`% 256` mask keeps the buffer invariant). -/
theorem enc91_ok : ∀ (bs : List Nat) (b n : Nat), n ≤ 13 → b < 2 ^ n →
    ∃ cs, Base91.encodeLoop bs b n = Except.ok cs
  | [], b, n, hn13, hb => by
    by_cases hn0 : 0 < n
    · have he13 : (2 : Nat) ^ 13 = 8192 := by norm_num
      have hpow : (2 : Nat) ^ n ≤ 2 ^ 13 := Nat.pow_le_pow_right (by norm_num) hn13
      have hb8191 : b ≤ 8191 := by omega
      have hget1 := list_get?_eq_getD BASE91_ALPHABET (b % 91)
        (by rw [base91_length]; exact Nat.mod_lt _ (by norm_num))
      by_cases htwo : 7 < n ∨ 90 < b
      · have hget2 := list_get?_eq_getD BASE91_ALPHABET (b / 91)
          (by rw [base91_length]; omega)
        refine ⟨[BASE91_ALPHABET.getD (b % 91) ' ', BASE91_ALPHABET.getD (b / 91) ' '], ?_⟩
        simp only [Base91.encodeLoop, if_pos hn0, hget1, if_pos htwo, hget2]
      · refine ⟨[BASE91_ALPHABET.getD (b % 91) ' '], ?_⟩
        simp only [Base91.encodeLoop, if_pos hn0, hget1, if_neg htwo]
    · exact ⟨[], by simp only [Base91.encodeLoop, if_neg hn0]⟩
  | byte :: rest, b, n, hn13, hb => by
    have hor : b ||| (((byte % 256) <<< n) % U32) = b + byte % 256 * 2 ^ n :=
      orShiftSmall b (byte % 256) n hb
        (mul_pow_lt_U32 _ 8 n (Nat.mod_lt _ (by norm_num)) (by omega))
    have hb1 : b + byte % 256 * 2 ^ n < 2 ^ (n + 8) := by
      calc b + byte % 256 * 2 ^ n = byte % 256 * 2 ^ n + b := by ring
        _ < 2 ^ 8 * 2 ^ n := mul_add_lt_pow _ b 8 n (Nat.mod_lt _ (by norm_num)) hb
        _ = 2 ^ (8 + n) := (pow_add 2 8 n).symm
        _ = 2 ^ (n + 8) := by rw [Nat.add_comm]
    set b1 := b + byte % 256 * 2 ^ n with hb1def
    by_cases h13 : 13 < n + 8
    · have hand13 : b1 &&& 8191 = b1 % 8192 := by
        rw [show (8191 : Nat) = 2 ^ 13 - 1 by norm_num, Nat.and_pow_two_sub_one_eq_mod]
      by_cases hv0 : 88 < b1 &&& 8191
      · have hv0A : 88 < b1 % 8192 := by rw [← hand13]; exact hv0
        have hb2lt : b1 >>> 13 < 2 ^ (n + 8 - 13) := by
          rw [Nat.shiftRight_eq_div_pow, Nat.div_lt_iff_lt_mul (two_pow_pos' 13),
            ← pow_add, show n + 8 - 13 + 13 = n + 8 by omega]
          exact hb1
        obtain ⟨cs, hc1⟩ := enc91_ok rest (b1 >>> 13) (n + 8 - 13) (by omega) hb2lt
        have he2 := encodeTwo_eq (b1 % 8192) (by omega)
        refine ⟨[BASE91_ALPHABET.getD (b1 % 8192 % 91) ' ',
          BASE91_ALPHABET.getD (b1 % 8192 / 91) ' '] ++ cs, ?_⟩
        simp only [Base91.encodeLoop, hor, if_pos h13, hand13,
          if_pos hv0A, he2, hc1, Except.map]
      · have hv0B : ¬ 88 < b1 % 8192 := by rw [← hand13]; exact hv0
        have hand14 : b1 &&& 16383 = b1 % 16384 := by
          rw [show (16383 : Nat) = 2 ^ 14 - 1 by norm_num, Nat.and_pow_two_sub_one_eq_mod]
        have hmod1314 : b1 % 16384 % 8192 = b1 % 8192 :=
          Nat.mod_mod_of_dvd b1 (by norm_num)
        have hb2lt : b1 >>> 14 < 2 ^ (n + 8 - 14) := by
          rw [Nat.shiftRight_eq_div_pow, Nat.div_lt_iff_lt_mul (two_pow_pos' 14),
            ← pow_add, show n + 8 - 14 + 14 = n + 8 by omega]
          exact hb1
        obtain ⟨cs, hc1⟩ := enc91_ok rest (b1 >>> 14) (n + 8 - 14) (by omega) hb2lt
        have he2 := encodeTwo_eq (b1 % 16384) (by omega)
        refine ⟨[BASE91_ALPHABET.getD (b1 % 16384 % 91) ' ',
          BASE91_ALPHABET.getD (b1 % 16384 / 91) ' '] ++ cs, ?_⟩
        simp only [Base91.encodeLoop, hor, if_pos h13, hand13,
          if_neg hv0B, hand14, he2, hc1, Except.map]
    · obtain ⟨cs, hc1⟩ := enc91_ok rest b1 (n + 8) (by omega) hb1
      refine ⟨cs, ?_⟩
      simp only [Base91.encodeLoop]
      rw [if_neg h13, hor]
      exact hc1

/-! ### Base16: roundtrip, length, failure and panic analysis -/

theorem hexBytes_length : ∀ (input : List Nat), (hexBytes input).length = 2 * input.length
  | [] => rfl
  | b :: tl => by
    show ([(hexDigitChar (b / 16)).toNat, (hexDigitChar (b % 16)).toNat] ++
      hexBytes tl).length = _
    rw [List.length_append, hexBytes_length tl, List.length_cons]
    simp only [List.length_cons, List.length_nil]
    ring

/-- Decoding a Base16 encoding restores the input bytes. -/
theorem base16_roundtrip (bs : List Nat) (hb : ∀ b ∈ bs, b < 256) :
    ∃ s, Base16.encode bs = Except.ok s ∧ Base16.decode s = ROut.ok bs := by
  refine ⟨_, rfl, ?_⟩
  show Base16.decodeBytes (utf8Bytes (bs.flatMap fun b =>
    [hexDigitChar (b / 16), hexDigitChar (b % 16)])) = _
  rw [utf8Bytes_encode bs hb]
  have hlen : (hexBytes bs).length % 2 = 0 := by rw [hexBytes_length]; omega
  simp only [Base16.decodeBytes]
  rw [if_neg (by rw [hexBytes_length]; omega)]
  rw [decodeLoop_eq_parsePairs (hexBytes bs) (hexBytes_ascii bs hb) hlen,
    parsePairs_hexBytes bs hb]

/-- A successful chunk loop emits exactly one byte per input byte pair. -/
theorem decodeLoop_ok_length : ∀ (bs vs : List Nat),
    Base16.decodeLoop bs = ROut.ok vs → 2 * vs.length = bs.length
  | [], vs, h => by
    simp only [Base16.decodeLoop, ROut.ok.injEq] at h
    subst h
    rfl
  | [_], vs, h => by simp [Base16.decodeLoop] at h
  | b1 :: b2 :: rest, vs, h => by
    cases rest with
    | nil =>
      simp only [Base16.decodeLoop] at h
      cases hpc : parseChunk b1 b2 with
      | none => rw [hpc] at h; simp at h
      | some v =>
        rw [hpc] at h
        simp only [ROut.ok.injEq] at h
        subst h
        rfl
    | cons b3 rtl =>
      simp only [Base16.decodeLoop] at h
      by_cases hc : isCont b3 = true
      · rw [if_pos hc] at h
        simp at h
      · rw [if_neg hc] at h
        cases hpc : parseChunk b1 b2 with
        | none => rw [hpc] at h; simp at h
        | some v =>
          rw [hpc] at h
          cases hd : Base16.decodeLoop (b3 :: rtl) with
          | ok tl =>
            rw [hd] at h
            simp only [ROut.ok.injEq] at h
            subst h
            have := decodeLoop_ok_length (b3 :: rtl) tl hd
            simp only [List.length_cons] at *
            omega
          | err e => rw [hd] at h; simp at h
          | panic => rw [hd] at h; simp at h

/-- Bytes at or above 128 are not hex digits. -/
theorem hexVal_high (b : Nat) (h : 128 ≤ b) : hexVal b = none := by
  unfold hexVal
  rw [if_neg (by omega), if_neg (by omega), if_neg (by omega)]

/-- An even-length all-hex-digit byte list parses successfully. -/
theorem parsePairs_some_of_hex : ∀ (bs : List Nat), (∀ b ∈ bs, (hexVal b).isSome) →
    bs.length % 2 = 0 → ∃ vs, parsePairs bs = some vs
  | [], _, _ => ⟨[], rfl⟩
  | [_], _, hE => by simp at hE
  | b1 :: b2 :: r, h, hE => by
    obtain ⟨vs, hvs⟩ := parsePairs_some_of_hex r (fun x hx => h x (by simp [hx]))
      (by simp only [List.length_cons] at hE; omega)
    obtain ⟨v1, hv1⟩ := Option.isSome_iff_exists.mp (h b1 (by simp))
    obtain ⟨v2, hv2⟩ := Option.isSome_iff_exists.mp (h b2 (by simp))
    have hb1ne : b1 ≠ 43 := by
      intro hb
      subst hb
      rw [show hexVal 43 = none from rfl] at hv1
      simp at hv1
    refine ⟨(16 * v1 + v2) :: vs, ?_⟩
    simp only [parsePairs, parseChunk, if_neg hb1ne, hv1, hv2, hvs]

/-- A non-hex byte other than `+` anywhere in an even-length byte list makes
the pairwise parse fail. -/
theorem parsePairs_none_of_bad : ∀ (bs : List Nat) (b : Nat), bs.length % 2 = 0 →
    b ∈ bs → hexVal b = none → b ≠ 43 → parsePairs bs = none
  | [], b, _, hmem, _, _ => by simp at hmem
  | [_], _, hE, _, _, _ => by simp at hE
  | b1 :: b2 :: r, b, hE, hmem, hnone, hne => by
    simp only [List.mem_cons] at hmem
    rcases hmem with rfl | rfl | hmem
    · simp only [parsePairs, parseChunk, if_neg hne, hnone]
    · simp only [parsePairs, parseChunk]
      by_cases hb1 : b1 = 43
      · rw [if_pos hb1, hnone]
      · rw [if_neg hb1, hnone]
        cases hexVal b1 <;> rfl
    · have hrec := parsePairs_none_of_bad r b
        (by simp only [List.length_cons] at hE; omega) hmem hnone hne
      simp only [parsePairs, hrec]
      cases parseChunk b1 b2 <;> rfl

/-! ### Base16 case-insensitivity -/

/-- Uppercasing a hex letter relates the single-byte UTF-8 encodings. -/
theorem utf8Char_caseRel (a b : Char) (h : upcaseRel a b) :
    List.Forall₂ byteCaseRel (utf8Char a) (utf8Char b) := by
  rcases h with rfl | ⟨h1, h2, h3⟩
  · rw [List.forall₂_same]
    intro x _
    exact Or.inl rfl
  · have ha : utf8Char a = [a.toNat] := by
      simp only [utf8Char]
      rw [if_pos (by omega)]
    have hb : utf8Char b = [b.toNat] := by
      simp only [utf8Char]
      rw [if_pos (by omega)]
    rw [ha, hb]
    exact List.Forall₂.cons (Or.inr ⟨h1, h2, h3⟩) List.Forall₂.nil

theorem utf8Bytes_caseRel (s t : List Char) (h : List.Forall₂ upcaseRel s t) :
    List.Forall₂ byteCaseRel (utf8Bytes s) (utf8Bytes t) := by
  induction h with
  | nil => exact List.Forall₂.nil
  | cons hab htl ih =>
    simp only [utf8Bytes, List.flatMap_cons] at *
    exact List.rel_append (utf8Char_caseRel _ _ hab) ih

/-- Related bytes have the same hex-digit value. -/
theorem byteCaseRel_hexVal (b1 b2 : Nat) (h : byteCaseRel b1 b2) :
    hexVal b2 = hexVal b1 := by
  rcases h with rfl | ⟨h1, h2, h3⟩
  · rfl
  · subst h3
    have hL : hexVal (b1 - 32) = some (b1 - 32 - 55) := by
      unfold hexVal
      rw [if_neg (by omega), if_neg (by omega), if_pos (by omega)]
    have hR : hexVal b1 = some (b1 - 87) := by
      unfold hexVal
      rw [if_neg (by omega), if_pos (by omega)]
    rw [hL, hR]
    congr 1

/-- Related bytes agree on being continuation bytes (both are ASCII here). -/
theorem byteCaseRel_isCont (b1 b2 : Nat) (h : byteCaseRel b1 b2) :
    isCont b2 = isCont b1 := by
  rcases h with rfl | ⟨h1, h2, h3⟩
  · rfl
  · subst h3
    have hL : isCont (b1 - 32) = false := by
      simp only [isCont, Bool.and_eq_false_iff]
      simp only [decide_eq_false_iff_not, not_le, not_lt]
      omega
    have hR : isCont b1 = false := by
      simp only [isCont, Bool.and_eq_false_iff]
      simp only [decide_eq_false_iff_not, not_le, not_lt]
      omega
    rw [hL, hR]

theorem byteCaseRel_plus (b1 b2 : Nat) (h : byteCaseRel b1 b2) : b2 = 43 ↔ b1 = 43 := by
  rcases h with rfl | ⟨h1, h2, h3⟩ <;> omega

/-- Chunk parsing is invariant under uppercasing either byte. -/
theorem parseChunk_resp (a1 a2 b1 b2 : Nat) (h1 : byteCaseRel a1 b1)
    (h2 : byteCaseRel a2 b2) : parseChunk b1 b2 = parseChunk a1 a2 := by
  unfold parseChunk
  rw [byteCaseRel_hexVal _ _ h1, byteCaseRel_hexVal _ _ h2]
  by_cases h43 : a1 = 43
  · rw [if_pos h43, if_pos ((byteCaseRel_plus _ _ h1).mpr h43)]
  · rw [if_neg h43, if_neg (fun hb => h43 ((byteCaseRel_plus _ _ h1).mp hb))]

/-- The chunk loop is invariant under uppercasing hex letters. -/
theorem decodeLoop_resp : ∀ (bs1 bs2 : List Nat), List.Forall₂ byteCaseRel bs1 bs2 →
    Base16.decodeLoop bs2 = Base16.decodeLoop bs1
  | [], _, h => by cases h; rfl
  | [_], _, h => by
    cases h with
    | cons hab htl => cases htl; rfl
  | a1 :: a2 :: r, _, h => by
    cases h with
    | cons h1 htl =>
      cases htl with
      | cons h2 hrr =>
        cases r with
        | nil =>
          cases hrr
          simp only [Base16.decodeLoop, parseChunk_resp a1 a2 _ _ h1 h2]
        | cons a3 rtl =>
          cases hrr with
          | cons h3 hrest =>
            simp only [Base16.decodeLoop]
            rw [byteCaseRel_isCont _ _ h3, parseChunk_resp a1 a2 _ _ h1 h2,
              decodeLoop_resp (a3 :: rtl) _ (List.Forall₂.cons h3 hrest)]

/-- `Base16::decode` is invariant under uppercasing hex letters. -/
theorem base16_decode_resp (s t : List Char) (h : List.Forall₂ upcaseRel s t) :
    Base16.decode t = Base16.decode s := by
  have hbytes := utf8Bytes_caseRel s t h
  have hlen : (utf8Bytes t).length = (utf8Bytes s).length := hbytes.length_eq.symm
  show Base16.decodeBytes (utf8Bytes t) = Base16.decodeBytes (utf8Bytes s)
  simp only [Base16.decodeBytes]
  rw [hlen, decodeLoop_resp (utf8Bytes s) (utf8Bytes t) hbytes]

/-! ### Encoder totality and `u128` overflow examples -/

theorem encode58_ok (input : List Nat) : ∃ s, Base58.encode input = Except.ok s := by
  show ∃ s, (match Base58.digitsLoop
      (input.foldl (fun num byte => (num * 256 + byte % 256) % U128) 0) with
    | Except.error e => Except.error e
    | Except.ok ds => Except.ok ((ds ++ List.replicate (input.takeWhile (· = 0)).length
        BASE58_ALPHABET.headI).reverse)) = Except.ok s
  rw [digitsLoop58_eq]
  exact ⟨_, rfl⟩

theorem encode62_ok (input : List Nat) : ∃ s, Base62.encode input = Except.ok s := by
  show ∃ s, (match Base62.digitsLoop
      (input.foldl (fun num byte => (num * 256 + byte % 256) % U128) 0) with
    | Except.error e => Except.error e
    | Except.ok ds => Except.ok ((ds ++ List.replicate (input.takeWhile (· = 0)).length
        BASE62_ALPHABET.headI).reverse)) = Except.ok s
  rw [digitsLoop62_eq]
  exact ⟨_, rfl⟩

theorem encode36_ok (input : List Nat) : ∃ s, Base36.encode input = Except.ok s := by
  show ∃ s, (match Base36.digitsLoop
      (input.foldl (fun num byte => ((num <<< 8) % U128) ||| (byte % 256)) 0) with
    | Except.error e => Except.error e
    | Except.ok ds => Except.ok ((if ds.isEmpty then ['0'] else ds).reverse)) = Except.ok s
  rw [digitsLoop36_eq]
  exact ⟨_, rfl⟩

/-- A 17-byte input whose big-endian value is exactly `2^128`: the `u128`
accumulator of `Base58::encode` wraps to zero. -/
theorem encode58_overflow : Base58.encode (1 :: List.replicate 16 0) = Except.ok [] := by
  show (match Base58.digitsLoop
      ((1 :: List.replicate 16 0).foldl (fun num byte => (num * 256 + byte % 256) % U128) 0) with
    | Except.error e => Except.error e
    | Except.ok ds => Except.ok ((ds ++
        List.replicate ((1 :: List.replicate 16 0).takeWhile (· = 0)).length
        BASE58_ALPHABET.headI).reverse)) = _
  rw [show (1 :: List.replicate 16 0).foldl
      (fun num byte => (num * 256 + byte % 256) % U128) 0 = 0 from by decide,
    digitsLoop58_eq, Nat.digits_zero]
  rfl

theorem encode62_overflow : Base62.encode (1 :: List.replicate 16 0) = Except.ok [] := by
  show (match Base62.digitsLoop
      ((1 :: List.replicate 16 0).foldl (fun num byte => (num * 256 + byte % 256) % U128) 0) with
    | Except.error e => Except.error e
    | Except.ok ds => Except.ok ((ds ++
        List.replicate ((1 :: List.replicate 16 0).takeWhile (· = 0)).length
        BASE62_ALPHABET.headI).reverse)) = _
  rw [show (1 :: List.replicate 16 0).foldl
      (fun num byte => (num * 256 + byte % 256) % U128) 0 = 0 from by decide,
    digitsLoop62_eq, Nat.digits_zero]
  rfl

theorem encode36_overflow : Base36.encode (1 :: List.replicate 16 0) = Except.ok ['0'] := by
  show (match Base36.digitsLoop
      ((1 :: List.replicate 16 0).foldl
        (fun num byte => ((num <<< 8) % U128) ||| (byte % 256)) 0) with
    | Except.error e => Except.error e
    | Except.ok ds => Except.ok ((if ds.isEmpty then ['0'] else ds).reverse)) = _
  rw [show (1 :: List.replicate 16 0).foldl
      (fun num byte => ((num <<< 8) % U128) ||| (byte % 256)) 0 = 0 from by decide,
    digitsLoop36_eq, Nat.digits_zero]
  rfl

theorem decode58_nil : Base58.decode [] = Except.ok [] := by
  have h0 : Base58.decode [] =
      Except.ok ((leBytesLoop 0 ++ List.replicate 0 0).reverse) := rfl
  rw [leBytesLoop_eq, Nat.digits_zero] at h0
  exact h0

theorem spec58Encode_overflow_ne : spec58Encode (1 :: List.replicate 16 0) ≠ [] := by
  unfold spec58Encode
  intro h
  rw [List.reverse_eq_nil_iff, List.append_eq_nil] at h
  have h1 := h.1
  rw [List.map_eq_nil_iff, Nat.digits_eq_nil_iff_eq_zero] at h1
  have h2 : byteVal (1 :: List.replicate 16 0) = 2 ^ 128 := by decide
  rw [h2] at h1
  exact absurd h1 (by positivity)

theorem spec62Encode_overflow_ne : spec62Encode (1 :: List.replicate 16 0) ≠ [] := by
  unfold spec62Encode
  intro h
  rw [List.reverse_eq_nil_iff, List.append_eq_nil] at h
  have h1 := h.1
  rw [List.map_eq_nil_iff, Nat.digits_eq_nil_iff_eq_zero] at h1
  have h2 : byteVal (1 :: List.replicate 16 0) = 2 ^ 128 := by decide
  rw [h2] at h1
  exact absurd h1 (by positivity)

theorem decode36_zero_char : Base36.decode ['0'] = Except.ok [] := by
  have h := bigDecodeNum_replicate_zero 36 BASE36_ALPHABET "invalid base36 character"
    '0' (by decide) 1
  show (match bigDecodeNum 36 BASE36_ALPHABET "invalid base36 character" ['0'] 0 with
    | Except.error e => Except.error e
    | Except.ok num => Except.ok (leBytesLoop num).reverse) = _
  rw [show (['0'] : List Char) = List.replicate 1 '0' from rfl, h]
  show Except.ok (leBytesLoop 0).reverse = _
  rw [leBytesLoop_eq, Nat.digits_zero]
  rfl

/-- All-zero inputs of any length encode to `"0"` in Base36. -/
theorem encode36_zeros (z : Nat) : Base36.encode (List.replicate z 0) = Except.ok ['0'] := by
  have hnum : ∀ (k : Nat), (List.replicate k 0).foldl
      (fun num byte => ((num <<< 8) % U128) ||| (byte % 256)) 0 = 0 := by
    intro k
    induction k with
    | zero => rfl
    | succ n ih =>
      simp only [List.replicate_succ, List.foldl_cons]
      exact ih
  show (match Base36.digitsLoop
      ((List.replicate z 0).foldl
        (fun num byte => ((num <<< 8) % U128) ||| (byte % 256)) 0) with
    | Except.error e => Except.error e
    | Except.ok ds => Except.ok ((if ds.isEmpty then ['0'] else ds).reverse)) = _
  rw [hnum z, digitsLoop36_eq, Nat.digits_zero]
  rfl

/-! ### The claims -/

/-- C1: for every byte sequence `b` (including the empty sequence),
`Base16::decode(Base16::encode(b))`, `Base32::decode(Base32::encode(b))`,
`Base64::decode(Base64::encode(b))` and `Base91::decode(Base91::encode(b))`
each return `Ok(b)`. -/
theorem C1_roundtrip_16_32_64_91 (bs : List Nat) (hb : ∀ b ∈ bs, b < 256) :
    (∃ s, Base16.encode bs = Except.ok s ∧ Base16.decode s = ROut.ok bs) ∧
    (∃ s, Base32.encode bs = Except.ok s ∧ Base32.decode s = Except.ok bs) ∧
    (∃ s, Base64.encode bs = Except.ok s ∧ Base64.decode s = Except.ok bs) ∧
    (∃ s, Base91.encode bs = Except.ok s ∧ Base91.decode s = Except.ok bs) :=
  ⟨base16_roundtrip bs hb, base32_roundtrip bs hb, base64_roundtrip bs hb,
    base91_roundtrip bs hb⟩

theorem C1_roundtrip_witness :
    (∃ s, Base16.encode [0, 72, 255] = Except.ok s ∧
      Base16.decode s = ROut.ok [0, 72, 255]) ∧
    (∃ s, Base32.encode [0, 72, 255] = Except.ok s ∧
      Base32.decode s = Except.ok [0, 72, 255]) ∧
    (∃ s, Base64.encode [0, 72, 255] = Except.ok s ∧
      Base64.decode s = Except.ok [0, 72, 255]) ∧
    (∃ s, Base91.encode [0, 72, 255] = Except.ok s ∧
      Base91.decode s = Except.ok [0, 72, 255]) :=
  C1_roundtrip_16_32_64_91 [0, 72, 255] (by decide)

/-- C2 (amended: inputs of at most 16 bytes, where the `u128` accumulator
cannot overflow): `Base58::decode(Base58::encode(b))` and
`Base62::decode(Base62::encode(b))` return `Ok(b)`, leading zero bytes
included. -/
theorem C2_roundtrip_58_62 (bs : List Nat) (hb : ∀ b ∈ bs, b < 256)
    (hlen : bs.length ≤ 16) :
    (∃ s, Base58.encode bs = Except.ok s ∧ Base58.decode s = Except.ok bs) ∧
    (∃ s, Base62.encode bs = Except.ok s ∧ Base62.decode s = Except.ok bs) :=
  ⟨⟨_, encode58_eq bs hb hlen, decode58_spec58 bs hb hlen⟩,
   ⟨_, encode62_eq bs hb hlen, decode62_spec62 bs hb hlen⟩⟩

theorem C2_roundtrip_witness :
    (∃ s, Base58.encode [0, 0, 1, 2] = Except.ok s ∧
      Base58.decode s = Except.ok [0, 0, 1, 2]) ∧
    (∃ s, Base62.encode [0, 0, 1, 2] = Except.ok s ∧
      Base62.decode s = Except.ok [0, 0, 1, 2]) :=
  C2_roundtrip_58_62 [0, 0, 1, 2] (by decide) (by decide)

/-- C2 counterexample: the 17-byte input `[1, 0, …, 0]` has big-endian value
`2^128`, the `u128` accumulator wraps to zero, the encoding is the empty
string, and decoding it returns the empty sequence, not the input. -/
theorem C2_overflow_cex :
    Base58.encode (1 :: List.replicate 16 0) = Except.ok [] ∧
    Base58.decode [] = Except.ok [] ∧
    ([] : List Nat) ≠ 1 :: List.replicate 16 0 :=
  ⟨encode58_overflow, decode58_nil, by decide⟩

/-- C3 (amended: inputs of at most 16 bytes): `Base36::decode(Base36::encode(b))`
returns `Ok` of `b` with leading zero bytes removed; all-zero (or empty)
inputs of any length encode to `"0"`, which decodes to the empty sequence. -/
theorem C3_base36_strips_zeros (bs : List Nat) (hb : ∀ b ∈ bs, b < 256)
    (hlen : bs.length ≤ 16) :
    (∃ s, Base36.encode bs = Except.ok s ∧
      Base36.decode s = Except.ok (bs.dropWhile (· = 0))) ∧
    (∀ z, Base36.encode (List.replicate z 0) = Except.ok ['0']) ∧
    Base36.decode ['0'] = Except.ok [] :=
  ⟨⟨_, encode36_eq bs hb hlen, decode36_spec36 bs hb hlen⟩, encode36_zeros,
    decode36_zero_char⟩

theorem C3_base36_witness :
    (∃ s, Base36.encode [0, 7, 0] = Except.ok s ∧
      Base36.decode s = Except.ok ([0, 7, 0].dropWhile (· = 0))) ∧
    (∀ z, Base36.encode (List.replicate z 0) = Except.ok ['0']) ∧
    Base36.decode ['0'] = Except.ok [] :=
  C3_base36_strips_zeros [0, 7, 0] (by decide) (by decide)

/-- C3 counterexample: the 17-byte input `[1, 0, …, 0]` starts with a nonzero
byte, so the claim promises an exact round trip, but the `u128` accumulator
wraps to zero and decode returns the empty sequence. -/
theorem C3_overflow_cex :
    Base36.encode (1 :: List.replicate 16 0) = Except.ok ['0'] ∧
    Base36.decode ['0'] = Except.ok [] ∧
    (1 :: List.replicate 16 0).dropWhile (· = 0) ≠ ([] : List Nat) :=
  ⟨encode36_overflow, decode36_zero_char, by decide⟩

/-- C4 (amended): `Base16::decode` fails on inputs of odd UTF-8 length with
the odd-length error; a successful decode returns exactly half as many bytes
as input bytes; an even-length string of hex digits decodes successfully.
(The original claim that any chunk containing a non-hex-digit character fails
is refuted by the counterexample: `u8::from_str_radix` accepts a leading
`+`.) -/
theorem C4_base16_decode_contract (s : List Char) :
    ((utf8Bytes s).length % 2 ≠ 0 →
      Base16.decode s = ROut.err "hex string has an odd length") ∧
    (∀ bs, Base16.decode s = ROut.ok bs → 2 * bs.length = (utf8Bytes s).length) ∧
    ((∀ c ∈ s, isHexDigit c) → s.length % 2 = 0 →
      ∃ bs, Base16.decode s = ROut.ok bs ∧ 2 * bs.length = s.length) := by
  refine ⟨?_, ?_, ?_⟩
  · intro hodd
    show Base16.decodeBytes (utf8Bytes s) = _
    simp only [Base16.decodeBytes]
    rw [if_pos hodd]
  · intro bs h
    have h' : Base16.decodeBytes (utf8Bytes s) = ROut.ok bs := h
    by_cases hodd : (utf8Bytes s).length % 2 ≠ 0
    · rw [show Base16.decodeBytes (utf8Bytes s) =
          ROut.err "hex string has an odd length" from by
        simp only [Base16.decodeBytes]
        rw [if_pos hodd]] at h'
      simp at h'
    · have h2 : Base16.decodeLoop (utf8Bytes s) = ROut.ok bs := by
        rw [show Base16.decodeBytes (utf8Bytes s) =
            Base16.decodeLoop (utf8Bytes s) from by
          simp only [Base16.decodeBytes]
          rw [if_neg hodd]] at h'
        exact h'
      exact decodeLoop_ok_length _ _ h2
  · intro hhex heven
    have hcharlt : ∀ c ∈ s, c.toNat < 128 := by
      intro c hc
      have hh := hhex c hc
      by_contra hge
      rw [isHexDigit, hexVal_high c.toNat (by omega)] at hh
      simp at hh
    have hmap : utf8Bytes s = s.map Char.toNat := utf8Bytes_ascii s hcharlt
    have hblen : (utf8Bytes s).length = s.length := by rw [hmap, List.length_map]
    have hbyteshex : ∀ b ∈ utf8Bytes s, (hexVal b).isSome := by
      intro b hbmem
      rw [hmap, List.mem_map] at hbmem
      obtain ⟨c, hc, rfl⟩ := hbmem
      exact hhex c hc
    obtain ⟨vs, hvs⟩ := parsePairs_some_of_hex (utf8Bytes s) hbyteshex
      (by rw [hblen]; exact heven)
    refine ⟨vs, ?_, ?_⟩
    · show Base16.decodeBytes (utf8Bytes s) = _
      simp only [Base16.decodeBytes]
      rw [if_neg (by rw [hblen]; omega)]
      rw [decodeLoop_eq_parsePairs (utf8Bytes s)
        (fun b hbmem => by
          rw [hmap, List.mem_map] at hbmem
          obtain ⟨c, hc, rfl⟩ := hbmem
          exact hcharlt c hc)
        (by rw [hblen]; exact heven), hvs]
    · have hl := parsePairs_length (utf8Bytes s) vs hvs
      rw [hblen] at hl
      omega

/-- C4 counterexample: the chunk `"+f"` contains the non-hex-digit `+`, yet
`Base16::decode` accepts it (`u8::from_str_radix` allows a leading sign). -/
theorem C4_plus_chunk_cex :
    Base16.decode ['+', 'f'] = ROut.ok [15] ∧ hexVal ('+'.toNat) = none := by
  decide

/-- C5 (amended): a character outside the alphabet makes decode fail for
every scheme, with the provisos the code imposes: for Base32/Base64 the
character must occur before the first `=` (everything after the first `=` is
ignored), and for Base16 (even-length ASCII input) the character must not be
a `+` (a chunk-leading `+` is accepted as a sign). -/
theorem C5_foreign_rejected :
    (∀ (s : List Char) (c : Char), c ∈ s.takeWhile (· ≠ '=') → c ∉ BASE32_ALPHABET →
      Base32.decode s = Except.error "invalid base32 character") ∧
    (∀ (s : List Char) (c : Char), c ∈ s.takeWhile (· ≠ '=') → c ∉ BASE64_ALPHABET →
      Base64.decode s = Except.error "invalid base64 character") ∧
    (∀ (s : List Char) (c : Char), c ∈ s → c ∉ BASE36_ALPHABET →
      Base36.decode s = Except.error "invalid base36 character") ∧
    (∀ (s : List Char) (c : Char), c ∈ s → c ∉ BASE58_ALPHABET →
      Base58.decode s = Except.error "invalid base58 character") ∧
    (∀ (s : List Char) (c : Char), c ∈ s → c ∉ BASE62_ALPHABET →
      Base62.decode s = Except.error "invalid base62 character") ∧
    (∀ (s : List Char) (c : Char), c ∈ s → c ∉ BASE91_ALPHABET →
      Base91.decode s = Except.error "invalid base91 character") ∧
    (∀ (s : List Char) (c : Char), (∀ x ∈ s, x.toNat < 128) → s.length % 2 = 0 →
      c ∈ s → hexVal c.toNat = none → c.toNat ≠ 43 →
      Base16.decode s = ROut.err "invalid digit") := by
  refine ⟨?_, ?_, ?_, ?_, ?_, ?_, ?_⟩
  · intro s c hc hmem
    exact packDecodeLoop_err 5 _ _ s 0 0 c hc (strFind_eq_none c _ hmem)
  · intro s c hc hmem
    exact packDecodeLoop_err 6 _ _ s 0 0 c hc (strFind_eq_none c _ hmem)
  · intro s c hc hmem
    have herr := bigDecodeNum_err 36 BASE36_ALPHABET "invalid base36 character"
      s 0 c hc (strFind_eq_none c _ hmem)
    show (match bigDecodeNum 36 BASE36_ALPHABET "invalid base36 character" s 0 with
      | Except.error e => Except.error e
      | Except.ok num => Except.ok (leBytesLoop num).reverse) = _
    rw [herr]
  · intro s c hc hmem
    have herr := bigDecodeNum_err 58 BASE58_ALPHABET "invalid base58 character"
      s 0 c hc (strFind_eq_none c _ hmem)
    show (match bigDecodeNum 58 BASE58_ALPHABET "invalid base58 character" s 0 with
      | Except.error e => Except.error e
      | Except.ok num => Except.ok ((leBytesLoop num ++
          List.replicate (s.takeWhile (· = BASE58_ALPHABET.headI)).length 0).reverse)) = _
    rw [herr]
  · intro s c hc hmem
    have herr := bigDecodeNum_err 62 BASE62_ALPHABET "invalid base62 character"
      s 0 c hc (strFind_eq_none c _ hmem)
    show (match bigDecodeNum 62 BASE62_ALPHABET "invalid base62 character" s 0 with
      | Except.error e => Except.error e
      | Except.ok num => Except.ok ((leBytesLoop num ++
          List.replicate (s.takeWhile (· = BASE62_ALPHABET.headI)).length 0).reverse)) = _
    rw [herr]
  · intro s c hc hmem
    exact base91DecodeLoop_err s 0 0 none c hc (strFind_eq_none c _ hmem)
  · intro s c hascii heven hc hnone hne43
    have hmap : utf8Bytes s = s.map Char.toNat := utf8Bytes_ascii s hascii
    have hblen : (utf8Bytes s).length = s.length := by rw [hmap, List.length_map]
    have hbad : parsePairs (utf8Bytes s) = none := by
      refine parsePairs_none_of_bad (utf8Bytes s) c.toNat
        (by rw [hblen]; exact heven) ?_ hnone hne43
      rw [hmap, List.mem_map]
      exact ⟨c, hc, rfl⟩
    show Base16.decodeBytes (utf8Bytes s) = _
    simp only [Base16.decodeBytes]
    rw [if_neg (by rw [hblen]; omega)]
    rw [decodeLoop_eq_parsePairs (utf8Bytes s)
      (fun b hbmem => by
        rw [hmap, List.mem_map] at hbmem
        obtain ⟨x, hx, rfl⟩ := hbmem
        exact hascii x hx)
      (by rw [hblen]; exact heven), hbad]

/-- C5 counterexample: `"=@"` contains `@`, which is neither in the Base32
alphabet nor the padding character, yet decode succeeds (everything after the
first `=` is ignored). -/
theorem C5_padding_skip_cex :
    Base32.decode ['=', '@'] = Except.ok [] ∧ '@' ∉ BASE32_ALPHABET ∧ '@' ≠ '=' :=
  ⟨rfl, by decide, by decide⟩

/-- C6: `Base32::encode` output length is a multiple of 8 and
`Base64::encode` output length is a multiple of 4. -/
theorem C6_padding_lengths (bs : List Nat) (hb : ∀ b ∈ bs, b < 256) :
    (∃ s, Base32.encode bs = Except.ok s ∧ s.length % 8 = 0) ∧
    (∃ s, Base64.encode bs = Except.ok s ∧ s.length % 4 = 0) :=
  ⟨⟨_, base32_encode_eq bs hb, padChars_length_mod 8 (by omega) _⟩,
   ⟨_, base64_encode_eq bs hb, padChars_length_mod 4 (by omega) _⟩⟩

theorem C6_padding_witness :
    (∃ s, Base32.encode [72, 101] = Except.ok s ∧ s.length % 8 = 0) ∧
    (∃ s, Base64.encode [72, 101] = Except.ok s ∧ s.length % 4 = 0) :=
  C6_padding_lengths [72, 101] (by decide)

/-- C7: encode never returns an error for any of the seven schemes; the
alphabet-index-out-of-range branches of the Base36/58/62 digit loops and the
Base32/64/91 lookups are unreachable. -/
theorem C7_encode_total (input : List Nat) (hb : ∀ b ∈ input, b < 256) :
    (∃ s, Base16.encode input = Except.ok s) ∧
    (∃ s, Base32.encode input = Except.ok s) ∧
    (∃ s, Base36.encode input = Except.ok s) ∧
    (∃ s, Base58.encode input = Except.ok s) ∧
    (∃ s, Base62.encode input = Except.ok s) ∧
    (∃ s, Base64.encode input = Except.ok s) ∧
    (∃ s, Base91.encode input = Except.ok s) :=
  ⟨⟨_, rfl⟩, ⟨_, base32_encode_eq input hb⟩, encode36_ok input, encode58_ok input,
    encode62_ok input, ⟨_, base64_encode_eq input hb⟩,
    enc91_ok input 0 0 (by omega) (by norm_num)⟩

theorem C7_encode_witness :
    (∃ s, Base16.encode [255, 0] = Except.ok s) ∧
    (∃ s, Base32.encode [255, 0] = Except.ok s) ∧
    (∃ s, Base36.encode [255, 0] = Except.ok s) ∧
    (∃ s, Base58.encode [255, 0] = Except.ok s) ∧
    (∃ s, Base62.encode [255, 0] = Except.ok s) ∧
    (∃ s, Base64.encode [255, 0] = Except.ok s) ∧
    (∃ s, Base91.encode [255, 0] = Except.ok s) :=
  C7_encode_total [255, 0] (by decide)

/-- C8 (amended: at MOST 16 bytes, not at least): the `u128` accumulation is
exact only while the big-endian value fits in 128 bits, i.e. for inputs of at
most 16 bytes, where encode and decode behave as the positional big-integer
algorithm specifies. -/
theorem C8_u128_bounded (bs : List Nat) (hb : ∀ b ∈ bs, b < 256)
    (hlen : bs.length ≤ 16) :
    byteVal bs < U128 ∧
    Base58.encode bs = Except.ok (spec58Encode bs) ∧
    Base58.decode (spec58Encode bs) = Except.ok bs ∧
    Base62.encode bs = Except.ok (spec62Encode bs) ∧
    Base62.decode (spec62Encode bs) = Except.ok bs ∧
    Base36.encode bs = Except.ok (spec36Encode bs) ∧
    Base36.decode (spec36Encode bs) = Except.ok (bs.dropWhile (· = 0)) :=
  ⟨byteVal_lt_U128 bs hb hlen, encode58_eq bs hb hlen, decode58_spec58 bs hb hlen,
    encode62_eq bs hb hlen, decode62_spec62 bs hb hlen, encode36_eq bs hb hlen,
    decode36_spec36 bs hb hlen⟩

theorem C8_u128_witness :
    byteVal [1, 2] < U128 ∧
    Base58.encode [1, 2] = Except.ok (spec58Encode [1, 2]) ∧
    Base58.decode (spec58Encode [1, 2]) = Except.ok [1, 2] ∧
    Base62.encode [1, 2] = Except.ok (spec62Encode [1, 2]) ∧
    Base62.decode (spec62Encode [1, 2]) = Except.ok [1, 2] ∧
    Base36.encode [1, 2] = Except.ok (spec36Encode [1, 2]) ∧
    Base36.decode (spec36Encode [1, 2]) = Except.ok ([1, 2].dropWhile (· = 0)) :=
  C8_u128_bounded [1, 2] (by decide) (by decide)

/-- C8 counterexample: a 17-byte input reaches big-endian value `2^128`
exactly; the `u128` accumulator wraps to zero and the encoding deviates from
the positional big-integer algorithm. -/
theorem C8_overflow_cex :
    byteVal (1 :: List.replicate 16 0) = U128 ∧
    Base62.encode (1 :: List.replicate 16 0) = Except.ok [] ∧
    spec62Encode (1 :: List.replicate 16 0) ≠ [] :=
  ⟨by decide, encode62_overflow, spec62Encode_overflow_ne⟩

/-- C9 (amended: on ASCII input): `Base16::decode` never panics on strings of
ASCII characters; the original total/atomic claim for every Unicode string is
refuted by the counterexample, where byte-indexed slicing hits a
non-character-boundary and panics. -/
theorem C9_ascii_no_panic (s : List Char) (hascii : ∀ c ∈ s, c.toNat < 128) :
    Base16.decode s ≠ ROut.panic := by
  have hmap := utf8Bytes_ascii s hascii
  show Base16.decodeBytes (utf8Bytes s) ≠ _
  simp only [Base16.decodeBytes]
  by_cases hodd : (utf8Bytes s).length % 2 ≠ 0
  · rw [if_pos hodd]
    simp
  · rw [if_neg hodd]
    rw [decodeLoop_eq_parsePairs (utf8Bytes s)
      (fun b hbmem => by
        rw [hmap, List.mem_map] at hbmem
        obtain ⟨c, hc, rfl⟩ := hbmem
        exact hascii c hc)
      (by omega)]
    cases parsePairs (utf8Bytes s) <;> simp

theorem C9_ascii_witness : Base16.decode ['4', '8'] ≠ ROut.panic :=
  C9_ascii_no_panic ['4', '8'] (by decide)

/-- C9 counterexample: decoding `"aéb"` panics: its UTF-8 bytes are
`[0x61, 0xC3, 0xA9, 0x62]`, and the first chunk's slice `input[0..2]` ends
inside the two-byte character `é`. -/
theorem C9_panic_cex : Base16.decode ['a', 'é', 'b'] = ROut.panic := by decide

/-- C10: `Base16::decode` is case-insensitive: uppercasing any lowercase hex
letters of the input (characterwise, by `upcaseRel`) leaves the result
unchanged. -/
theorem C10_case_insensitive (s t : List Char) (h : List.Forall₂ upcaseRel s t) :
    Base16.decode t = Base16.decode s :=
  base16_decode_resp s t h

theorem C10_case_witness :
    Base16.decode ['A', 'B'] = Base16.decode ['a', 'b'] ∧
    Base16.decode ['a', 'b'] = ROut.ok [171] :=
  ⟨C10_case_insensitive ['a', 'b'] ['A', 'B']
    (List.Forall₂.cons (Or.inr ⟨by decide, by decide, by decide⟩)
      (List.Forall₂.cons (Or.inr ⟨by decide, by decide, by decide⟩) List.Forall₂.nil)),
   by decide⟩

end SimpleEncode
